import Mathlib

/-!
# Analytics_Stats: statistics over the consolidated table

A shallow embedding of `src/Analytics_Stats.js`.

* JavaScript strings are Lean strings; `trim()` strips the ECMAScript
  WhiteSpace and LineTerminator code points, `toUpperCase()` is modelled on the
  ASCII letters (every other character is left as it is).
* A cell of the table is a string, a number or empty, as `getValues()` of a
  sheet range delivers them; numeric cells are modelled on the integers.
  Reading past the end of a row, or at index `-1`, gives `undefined`, which is
  `none` here.
* An object used as a frequency table is the list of its own properties in
  creation order; `Object.entries` reorders array-index keys first.
* `forEach` loops are left folds over the array.
-/

namespace AnalyticsStats

/-! ## Strings -/

/-- The code points of ECMAScript WhiteSpace and LineTerminator: what `trim()`
strips and what `\s` matches. -/
def isWhiteSpace (c : Char) : Bool :=
  c.toNat = 0x09 || c.toNat = 0x0A || c.toNat = 0x0B || c.toNat = 0x0C || c.toNat = 0x0D ||
  c.toNat = 0x20 || c.toNat = 0xA0 || c.toNat = 0x1680 ||
  (0x2000 ≤ c.toNat && c.toNat ≤ 0x200A) ||
  c.toNat = 0x2028 || c.toNat = 0x2029 || c.toNat = 0x202F || c.toNat = 0x205F ||
  c.toNat = 0x3000 || c.toNat = 0xFEFF

/-- Upper-casing of one character, on the ASCII letters. -/
def upperChar (c : Char) : Char :=
  if 97 ≤ c.toNat ∧ c.toNat ≤ 122 then Char.ofNat (c.toNat - 32) else c

/-- The method `String.prototype.trim`. -/
def trim (s : String) : String :=
  ⟨(s.data.dropWhile isWhiteSpace).rdropWhile isWhiteSpace⟩

/-- The method `String.prototype.toUpperCase`. -/
def toUpperCase (s : String) : String :=
  ⟨s.data.map upperChar⟩

/-- The conversion `String(n)` of an integer-valued number. -/
def numberToString : Int → String
  | Int.ofNat m => Nat.repr m
  | Int.negSucc m => "-" ++ Nat.repr (m + 1)

/-! ## Cells and rows -/

/-- One value of the table: a string, a number, or an empty cell (which
`getValues()` delivers as the empty string). -/
inductive Cell where
  | str (s : String)
  | num (n : Int)
  | empty
deriving DecidableEq, Repr

/-- A row of the table. -/
abbrev Row := List Cell

/-- The conversion `String(v)` of a cell value. -/
def Cell.toStr : Cell → String
  | .str s => s
  | .num n => numberToString n
  | .empty => ""

/-- JavaScript truthiness of a cell value: the empty string and the number 0
are falsy. -/
def Cell.truthy : Cell → Bool
  | .str s => s ≠ ""
  | .num n => n ≠ 0
  | .empty => false

/-- The property read `row[idx]`: `none` is `undefined`. -/
def Row.at (row : Row) (idx : Int) : Option Cell :=
  if idx < 0 then none else row.get? idx.toNat

/-- Truthiness of the result of a property read (`undefined` is falsy). -/
def truthy : Option Cell → Bool
  | some c => c.truthy
  | none => false

/-- The expression `String(v || '')`. -/
def stringOrEmpty (v : Option Cell) : String :=
  match v with
  | some c => if c.truthy then c.toStr else ""
  | none => ""

/-- The expression `String(row[idx] || '').trim()`. -/
def trimmedCell (row : Row) (idx : Int) : String :=
  trim (stringOrEmpty (row.at idx))

/-- The expression `String(row[idx] || '').trim().toUpperCase()`, the
normalisation every aggregator applies to a cell. -/
def normCell (row : Row) (idx : Int) : String :=
  toUpperCase (trimmedCell row idx)

/-! ## Frequency tables -/

/-- An object whose properties are counts: the own properties in creation
order. -/
abbrev FreqTable := List (String × Nat)

/-- The update `t[k] = (t[k] || 0) + 1`. -/
def increment : FreqTable → String → FreqTable
  | [], k => [(k, 1)]
  | (k', v) :: rest, k =>
    if k' = k then (k', v + 1) :: rest else (k', v) :: increment rest k

/-- The property read `t[k]` on a table (`none` when `k` is not a key). -/
def readCount (t : FreqTable) (k : String) : Option Nat :=
  (t.find? (fun e => e.1 = k)).map Prod.snd

/-- The value of a property key that is an array index: a canonical decimal
numeral below `2^32 - 1`. -/
def arrayIndex (k : String) : Option Nat :=
  if k.data ≠ [] ∧ k.data.all Char.isDigit = true ∧ (k.data.head? ≠ some '0' ∨ k.data.length = 1) then
    let n := k.data.foldl (fun acc c => 10 * acc + (c.toNat - 48)) 0
    if n < 2 ^ 32 - 1 then some n else none
  else none

/-- Order of two array-index keys. -/
def indexLe (a b : String × Nat) : Prop :=
  (arrayIndex a.1).getD 0 ≤ (arrayIndex b.1).getD 0

instance : DecidableRel indexLe := fun a b =>
  inferInstanceAs (Decidable ((arrayIndex a.1).getD 0 ≤ (arrayIndex b.1).getD 0))

/-- The function `Object.entries`: array-index keys in ascending numeric order,
then the other keys in creation order. -/
def entries (t : FreqTable) : List (String × Nat) :=
  (t.filter (fun e => (arrayIndex e.1).isSome)).insertionSort indexLe ++
    t.filter (fun e => !(arrayIndex e.1).isSome)

/-! ## Conflict detection -/

/-- A conflict record. -/
structure Conflict where
  code : String
  count : Nat
  nbClasses : Int
  message : String
deriving DecidableEq, Repr

/-- The dissociation summary. -/
structure StatsDisso where
  codes : Nat
  eleves : Nat
  details : FreqTable
  conflicts : List Conflict
deriving DecidableEq, Repr

/-- The record pushed for a code whose count exceeds the target. -/
def mkConflict (code : String) (count : Nat) (nbClassesCibles : Int) : Conflict :=
  { code := code
    count := count
    nbClasses := nbClassesCibles
    message := "⚠️ IMPOSSIBLE: " ++ numberToString count ++ " élèves avec code " ++ code ++
      " pour seulement " ++ numberToString nbClassesCibles ++ " classes" }

/-- The function `detecterConflitsDisso`. -/
def detecterConflitsDisso (statsDisso : StatsDisso) (nbClassesCibles : Int) : List Conflict :=
  (entries statsDisso.details).foldl
    (fun conflicts e =>
      if (e.2 : Int) > nbClassesCibles then conflicts ++ [mkConflict e.1 e.2 nbClassesCibles]
      else conflicts)
    []

/-! ## Binary64 arithmetic

The percentages of `calculerParite` are computed in binary64. A finite
non-negative binary64 number is kept as `mant * 2 ^ exp`; a quotient or a
product is the exact rational result rounded to 53 significant bits, ties to
even. Overflow and subnormal results are not modelled: the operands here are
counts of rows and the constant 100.
-/

/-- A finite non-negative binary64 number, `mant * 2 ^ exp`. -/
structure Double where
  mant : Nat
  exp : Int
deriving Repr

/-- Numerator of the value of `x` as a fraction of naturals. -/
def Double.num (x : Double) : Nat :=
  if 0 ≤ x.exp then x.mant * 2 ^ x.exp.toNat else x.mant

/-- Denominator of the value of `x` as a fraction of naturals. -/
def Double.den (x : Double) : Nat :=
  if 0 ≤ x.exp then 1 else 2 ^ (-x.exp).toNat

/-- The integer nearest to `n / d`, ties to the even one. -/
def roundHalfEven (n d : Nat) : Nat :=
  let q := n / d
  let r := n % d
  if 2 * r < d then q
  else if d < 2 * r then q + 1
  else if q % 2 = 0 then q else q + 1

/-- The halving loop of `log2`, at most `fuel` halvings. -/
def log2Loop : Nat → Nat → Nat
  | 0, _ => 0
  | fuel + 1, n => if 2 ≤ n then log2Loop fuel (n / 2) + 1 else 0

/-- The position of the leading bit of `n`: `2 ^ log2 n ≤ n < 2 ^ (log2 n + 1)`
for positive `n`. -/
def log2 (n : Nat) : Nat := log2Loop n n

/-- The integer `k` with `2 ^ k ≤ a / b < 2 ^ (k + 1)`, for positive `a`, `b`. -/
def floorLog2 (a b : Nat) : Int :=
  let d : Int := (log2 a : Int) - (log2 b : Int)
  if 0 ≤ d then (if b * 2 ^ d.toNat ≤ a then d else d - 1)
  else (if b ≤ a * 2 ^ (-d).toNat then d else d - 1)

/-- The binary64 number nearest to the fraction `a / b`, ties to even. -/
def roundToDouble (a b : Nat) : Double :=
  if a = 0 then ⟨0, 0⟩
  else
    let s : Int := 52 - floorLog2 a b
    if 0 ≤ s then ⟨roundHalfEven (a * 2 ^ s.toNat) b, -s⟩
    else ⟨roundHalfEven a (b * 2 ^ (-s).toNat), -s⟩

/-- A count as a binary64 number (exact below `2 ^ 53`). -/
def Double.ofNat (n : Nat) : Double := ⟨n, 0⟩

/-- The operator `/` on binary64 numbers (divisor not zero). -/
def Double.div (x y : Double) : Double :=
  roundToDouble (x.num * y.den) (x.den * y.num)

/-- The operator `*` on binary64 numbers. -/
def Double.mul (x y : Double) : Double :=
  roundToDouble (x.num * y.num) (x.den * y.den)

/-- The integer `n` that `x.toFixed(2)` prints as `n / 100`: the one for which
`n / 100 - x` is closest to zero, the larger one when there are two. -/
def toFixed2 (x : Double) : Nat :=
  (200 * x.num + x.den) / (2 * x.den)

/-- A percentage of `calculerParite`: the string `x.toFixed(2)`, kept as its
number of hundredths, or the number `0`. -/
inductive Ratio where
  | fixed (hundredths : Nat)
  | zero
deriving DecidableEq, Repr

/-- The numeric value of a percentage, in hundredths. -/
def Ratio.hundredths : Ratio → Nat
  | .fixed n => n
  | .zero => 0

/-- The JavaScript value of a percentage, as it prints. -/
def Ratio.render : Ratio → String
  | .fixed n =>
    Nat.repr (n / 100) ++ "." ++ Nat.repr (n % 100 / 10) ++ Nat.repr (n % 10)
  | .zero => "0"

/-! ## Column resolution -/

/-- The method `Array.prototype.indexOf` on an array of strings: the first
position of `x`, or `-1`. -/
def indexOf (l : List String) (x : String) : Int :=
  if l.indexOf x < l.length then (l.indexOf x : Int) else -1

/-- The loop of `findColumn` over the candidate names. -/
def findColumnLoop (normalized : List String) : List String → Int
  | [] => -1
  | name :: rest =>
    let idx := indexOf normalized (toUpperCase name)
    if idx ≠ -1 then idx else findColumnLoop normalized rest

/-- The helper `findColumn` of `getConsolidationStats`, with the header row it
closes over as first argument. -/
def findColumn (headers : Row) (possibleNames : List String) : Int :=
  let normalized := headers.map (fun h => toUpperCase (trim h.toStr))
  findColumnLoop normalized possibleNames

/-! ## Aggregators -/

/-- The headcount. -/
structure Effectifs where
  total : Nat
deriving DecidableEq, Repr

/-- The function `calculerEffectifs`. -/
def calculerEffectifs (rows : List Row) : Effectifs :=
  { total := rows.length }

/-- The counters of `calculerParite`. -/
structure PariteCounts where
  F : Nat
  M : Nat
  inconnu : Nat
deriving DecidableEq, Repr

/-- The gender parity summary. -/
structure Parite where
  F : Nat
  M : Nat
  inconnu : Nat
  ratioF : Ratio
  ratioM : Ratio
deriving DecidableEq, Repr

/-- The counting loop of `calculerParite`. -/
def pariteCounts (rows : List Row) (sexeIdx : Int) : PariteCounts :=
  rows.foldl
    (fun counts row =>
      let sexe := normCell row sexeIdx
      if sexe = "F" then { counts with F := counts.F + 1 }
      else if sexe = "M" then { counts with M := counts.M + 1 }
      else { counts with inconnu := counts.inconnu + 1 })
    { F := 0, M := 0, inconnu := 0 }

/-- The expression `total > 0 ? ((count / total) * 100).toFixed(2) : 0`. -/
def ratio (count total : Nat) : Ratio :=
  if total > 0 then
    .fixed (toFixed2 (((Double.ofNat count).div (Double.ofNat total)).mul (Double.ofNat 100)))
  else .zero

/-- The function `calculerParite`. -/
def calculerParite (rows : List Row) (sexeIdx : Int) : Parite :=
  let counts := pariteCounts rows sexeIdx
  let total := counts.F + counts.M
  { F := counts.F
    M := counts.M
    inconnu := counts.inconnu
    ratioF := ratio counts.F total
    ratioM := ratio counts.M total }

/-- The function `calculerLV2`. -/
def calculerLV2 (rows : List Row) (lv2Idx optIdx : Int) : FreqTable :=
  rows.foldl
    (fun lv2Counts row =>
      let lv2 := normCell row lv2Idx
      let opt := trimmedCell row optIdx
      if lv2 ≠ "" ∧ opt = "" then increment lv2Counts lv2 else lv2Counts)
    []

/-- The function `calculerOptions`. -/
def calculerOptions (rows : List Row) (optIdx lv2Idx : Int) : FreqTable :=
  rows.foldl
    (fun optCounts row =>
      let opt := normCell row optIdx
      let lv2 := normCell row lv2Idx
      if opt ≠ "" ∧ lv2 = "" then increment optCounts opt else optCounts)
    []

/-- Length of the match of `/[+,;/]|\s+\+\s+/` at the start of `s`, if there is
one. The first alternative is tried first; in the second both `\s+` can only
take a whole run of white space, since the character that follows has to be
`+` or the end of the match. -/
def matchSeparator (s : List Char) : Option Nat :=
  match s with
  | [] => none
  | c :: _ =>
    if c = '+' ∨ c = ',' ∨ c = ';' ∨ c = '/' then some 1
    else
      let ws1 := s.takeWhile isWhiteSpace
      match s.dropWhile isWhiteSpace with
      | [] => none
      | d :: after =>
        let ws2 := after.takeWhile isWhiteSpace
        if d = '+' ∧ 1 ≤ ws1.length ∧ 1 ≤ ws2.length then some (ws1.length + 1 + ws2.length)
        else none

/-- The scan of `split`: `skip` characters of a match are still to be passed
over, `piece` is the substring collected since the last match. -/
def splitLoop : Nat → List Char → List Char → List String
  | _, piece, [] => [⟨piece⟩]
  | skip + 1, piece, _ :: rest => splitLoop skip piece rest
  | 0, piece, c :: rest =>
    match matchSeparator (c :: rest) with
    | some n => ⟨piece⟩ :: splitLoop (n - 1) [] rest
    | none => splitLoop 0 (piece ++ [c]) rest

/-- The call `s.split(/[+,;/]|\s+\+\s+/)`. -/
def splitSeparators (s : String) : List String :=
  splitLoop 0 [] s.data

/-- The helper `splitOptions` of `calculerCombos`. -/
def splitOptions (optString : Option Cell) : List String :=
  ((splitSeparators (toUpperCase (stringOrEmpty optString))).map trim).filter (fun o => o ≠ "")

/-- The function `calculerCombos`. -/
def calculerCombos (rows : List Row) (lv2Idx optIdx : Int) : FreqTable :=
  rows.foldl
    (fun combos row =>
      let lv2 := normCell row lv2Idx
      let options := splitOptions (row.at optIdx)
      if lv2 ≠ "" ∧ options.length ≠ 0 then
        options.foldl (fun combos opt => increment combos (lv2 ++ " + " ++ opt)) combos
      else combos)
    []

/-- The function `calculerComptagesGlobaux`. -/
def calculerComptagesGlobaux (rows : List Row) (lv2Idx optIdx : Int) : FreqTable :=
  rows.foldl
    (fun globalCounts row =>
      let lv2 := normCell row lv2Idx
      let opt := normCell row optIdx
      let globalCounts := if lv2 ≠ "" then increment globalCounts lv2 else globalCounts
      if opt ≠ "" ∧ opt ≠ lv2 then increment globalCounts opt else globalCounts)
    []

/-- The function `calculerDispositifs`. -/
def calculerDispositifs (rows : List Row) (dispoIdx : Int) : FreqTable :=
  if dispoIdx = -1 then []
  else
    rows.foldl
      (fun dispoCounts row =>
        let dispo := normCell row dispoIdx
        if dispo ≠ "" then increment dispoCounts dispo else dispoCounts)
      []

/-- The association summary. -/
structure StatsAsso where
  codes : Nat
  eleves : Nat
  details : FreqTable
deriving DecidableEq, Repr

/-- The method `Set.prototype.add` on a set of strings kept as the list of its
elements. -/
def setAdd (s : List String) (x : String) : List String :=
  if x ∈ s then s else s ++ [x]

/-- The function `calculerCodesAsso`; the state of the loop is
`(codesSet, codeDetails, elevesTotal)`. -/
def calculerCodesAsso (rows : List Row) (assoIdx : Int) : StatsAsso :=
  if assoIdx = -1 then { codes := 0, eleves := 0, details := [] }
  else
    let st : List String × FreqTable × Nat := rows.foldl
      (fun st row =>
        let asso := normCell row assoIdx
        if asso ≠ "" then (setAdd st.1 asso, increment st.2.1 asso, st.2.2 + 1) else st)
      ([], [], 0)
    { codes := st.1.length, eleves := st.2.2, details := st.2.1 }

/-- The function `calculerCodesDisso`; the state of the loop is
`(codesSet, codeDetails, elevesTotal)`. -/
def calculerCodesDisso (rows : List Row) (dissoIdx : Int) : StatsDisso :=
  if dissoIdx = -1 then { codes := 0, eleves := 0, details := [], conflicts := [] }
  else
    let st : List String × FreqTable × Nat := rows.foldl
      (fun st row =>
        let disso := normCell row dissoIdx
        if disso ≠ "" then (setAdd st.1 disso, increment st.2.1 disso, st.2.2 + 1) else st)
      ([], [], 0)
    { codes := st.1.length, eleves := st.2.2, details := st.2.1, conflicts := [] }

/-! ## The report -/

/-- The object returned by `getConsolidationStats`; a property that the
returned object does not have is `none`. -/
structure Report where
  success : Bool
  error : Option String
  effectifs : Option Effectifs
  parite : Option Parite
  lv2 : Option FreqTable
  options : Option FreqTable
  combos : Option FreqTable
  global : Option FreqTable
  dispositifs : Option FreqTable
  asso : Option StatsAsso
  disso : Option StatsDisso
deriving DecidableEq, Repr

/-- The object `{ success: false, error: msg }`. -/
def failure (msg : String) : Report :=
  { success := false, error := some msg, effectifs := none, parite := none, lv2 := none,
    options := none, combos := none, global := none, dispositifs := none, asso := none,
    disso := none }

/-- The message returned when the sheet does not exist. -/
def missingTableMessage : String :=
  "L\x27onglet CONSOLIDATION n\x27existe pas. Veuillez d\x27abord consolider les données."

/-- The message returned when the sheet has no data row. -/
def emptyTableMessage : String :=
  "L\x27onglet CONSOLIDATION est vide. Veuillez d\x27abord générer les IDs et consolider."

/-- The data rows kept by `data.slice(1).filter(row => row[0])`. -/
def dataRows (data : List Row) : List Row :=
  (data.drop 1).filter (fun row => truthy (row.at 0))

/-- The function `getConsolidationStats`, as a function of the sheet named
CONSOLIDATION (`none` when the spreadsheet has no such sheet, otherwise the
values of its data range). The calls to `Logger.log` are left out, and so is
the `catch` branch: no operation of the body throws on these values. -/
def getConsolidationStats (consoSheet : Option (List Row)) : Report :=
  match consoSheet with
  | none => failure missingTableMessage
  | some data =>
    if data.length ≤ 1 then failure emptyTableMessage
    else
      let headers := data.headD []
      let rows := dataRows data
      let idxSEXE := findColumn headers ["SEXE", "SEX"]
      let idxLV2 := findColumn headers ["LV2", "LANGUE"]
      let idxOPT := findColumn headers ["OPT", "OPTION", "OPTIONS"]
      let idxDISPOSITIF := findColumn headers ["DISPOSITIF", "DISPO", "DISPOSITIFS"]
      let idxASSO := findColumn headers ["ASSO", "CODES_ASSO", "CODE_ASSO"]
      let idxDISSO := findColumn headers ["DISSO", "CODES_DISSO", "CODE_DISSO"]
      { success := true
        error := none
        effectifs := some (calculerEffectifs rows)
        parite := some (calculerParite rows idxSEXE)
        lv2 := some (calculerLV2 rows idxLV2 idxOPT)
        options := some (calculerOptions rows idxOPT idxLV2)
        combos := some (calculerCombos rows idxLV2 idxOPT)
        global := some (calculerComptagesGlobaux rows idxLV2 idxOPT)
        dispositifs := some (calculerDispositifs rows idxDISPOSITIF)
        asso := some (calculerCodesAsso rows idxASSO)
        disso := some (calculerCodesDisso rows idxDISSO) }

/-! ## Vocabulary of the properties -/

/-- The same letter in either case, or the same character. -/
def CaseChange (a b : Char) : Prop :=
  a = b ∨ (65 ≤ a.toNat ∧ a.toNat ≤ 90 ∧ b.toNat = a.toNat + 32) ∨
    (65 ≤ b.toNat ∧ b.toNat ≤ 90 ∧ a.toNat = b.toNat + 32)

instance (a b : Char) : Decidable (CaseChange a b) := by
  unfold CaseChange
  infer_instance

/-- The string `t` is `s` with the case of some letters changed. -/
def CaseVariant (s t : String) : Prop :=
  List.Forall₂ CaseChange s.data t.data

/-- The string `t` is `s` with the case of some letters changed and with other
white space around it. -/
def CaseSpaceVariant (s t : String) : Prop :=
  ∃ l r l' r' core core' : List Char,
    (∀ c ∈ l, isWhiteSpace c = true) ∧ (∀ c ∈ r, isWhiteSpace c = true) ∧
    (∀ c ∈ l', isWhiteSpace c = true) ∧ (∀ c ∈ r', isWhiteSpace c = true) ∧
    s.data = l ++ core ++ r ∧ t.data = l' ++ core' ++ r' ∧ List.Forall₂ CaseChange core core'

/-- A string made of white space only (the empty string included). -/
def Blank (s : String) : Prop :=
  ∀ c ∈ s.data, isWhiteSpace c = true

/-- An empty cell: the empty value or the empty string. -/
def Cell.isEmpty : Cell → Bool
  | .str s => s = ""
  | .num _ => false
  | .empty => true

/-- The first cell of the row is empty (or the row has no cell at all). -/
def firstCellEmpty (row : Row) : Bool :=
  match row.at 0 with
  | some c => c.isEmpty
  | none => true

/-- The value of a binary64 number. -/
def Double.toRat (x : Double) : ℚ :=
  (x.mant : ℚ) * (2 : ℚ) ^ x.exp

/-- The count read after `n` more increments of the key: an absent key stays
absent when `n = 0`. -/
def addCount (o : Option Nat) (n : Nat) : Option Nat :=
  match o with
  | some v => some (v + n)
  | none => if n = 0 then none else some n

/-- One of the four delimiter characters `+`, `,`, `;`, `/`. -/
def isDelimiter (c : Char) : Bool :=
  c = '+' || c = ',' || c = ';' || c = '/'

/-- Splitting a string at every delimiter character: `piece` is the substring
collected since the last delimiter. -/
def splitAtDelimiters : List Char → List Char → List String
  | piece, [] => [⟨piece⟩]
  | piece, c :: rest =>
    if isDelimiter c then ⟨piece⟩ :: splitAtDelimiters [] rest
    else splitAtDelimiters (piece ++ [c]) rest

/-- The non-empty trimmed tokens obtained by splitting `s` on `+`, `,`, `;` and
`/`. -/
def delimiterTokens (s : String) : List String :=
  ((splitAtDelimiters [] s.data).map trim).filter (fun o => o ≠ "")

/-- The option text of a row that `splitOptions` splits: `String(row[optIdx] || '')`. -/
def optionText (row : Row) (optIdx : Int) : String :=
  stringOrEmpty (row.at optIdx)

/-- The keys that one row increments in `calculerCombos`, in order. -/
def comboKeys (lv2Idx optIdx : Int) (row : Row) : List String :=
  if normCell row lv2Idx ≠ "" then
    (splitOptions (row.at optIdx)).map (fun opt => normCell row lv2Idx ++ " + " ++ opt)
  else []

/-! ## Conflict detection: properties -/

/-- A loop that pushes `f e` for the elements satisfying `p` builds the filtered, mapped list. -/
theorem foldl_push_eq {α β : Type} (p : α → Prop) [DecidablePred p] (f : α → β) (l : List α)
    (init : List β) :
    l.foldl (fun acc e => if p e then acc ++ [f e] else acc) init =
      init ++ (l.filter (fun e => decide (p e))).map f := by
  induction l generalizing init with
  | nil => simp
  | cons a l ih =>
    simp only [List.foldl_cons, List.filter_cons]
    by_cases h : p a
    · simp [h, ih]
    · simp [h, ih]

/-- The function `Object.entries` lists every property once. -/
theorem entries_perm (t : FreqTable) : (entries t).Perm t := by
  unfold entries
  refine List.Perm.trans (List.Perm.append_right _ (List.perm_insertionSort _ _)) ?_
  exact List.filter_append_perm _ t

/-- The conflicts are the entries above the target, in order. -/
theorem detecterConflitsDisso_eq (s : StatsDisso) (n : Int) :
    detecterConflitsDisso s n =
      ((entries s.details).filter (fun e => decide ((e.2 : Int) > n))).map
        (fun e => mkConflict e.1 e.2 n) := by
  unfold detecterConflitsDisso
  rw [foldl_push_eq (fun e : String × Nat => (e.2 : Int) > n) (fun e => mkConflict e.1 e.2 n)]
  simp

/-- Among distinct keys, a key selects its own entry. -/
theorem filter_key_of_nodup (l : List (String × Nat)) (h : (l.map Prod.fst).Nodup)
    (k : String) (v : Nat) (hm : (k, v) ∈ l) :
    l.filter (fun e => decide (e.1 = k)) = [(k, v)] := by
  induction l with
  | nil => simp at hm
  | cons a l ih =>
    simp only [List.map_cons, List.nodup_cons] at h
    rcases List.mem_cons.1 hm with rfl | hm'
    · have : l.filter (fun e => decide (e.1 = k)) = [] := by
        rw [List.filter_eq_nil_iff]
        intro e he hk
        simp only [decide_eq_true_eq] at hk
        have hmem : e.1 ∈ l.map Prod.fst := List.mem_map_of_mem Prod.fst he
        rw [hk] at hmem
        exact h.1 hmem
      simp [List.filter_cons, this]
    · have hne : a.1 ≠ k := by
        intro hk
        exact h.1 (hk ▸ List.mem_map_of_mem Prod.fst hm')
      simp [List.filter_cons, hne, ih h.2 hm']

/-- A count that is read belongs to an entry. -/
theorem count_eq_some_mem (t : FreqTable) (k : String) (v : Nat)
    (h : readCount t k = some v) : (k, v) ∈ t := by
  unfold readCount at h
  rcases hf : t.find? (fun e => decide (e.1 = k)) with _ | e
  · simp [hf] at h
  · simp [hf] at h
    have h1 := List.find?_some hf
    have h2 := List.mem_of_find?_eq_some hf
    simp only [decide_eq_true_eq] at h1
    have : e = (k, v) := Prod.ext h1 h
    exact this ▸ h2

/-- Among distinct keys, an entry is what a read returns. -/
theorem mem_count_eq_some (t : FreqTable) (hk : (t.map Prod.fst).Nodup) (k : String) (v : Nat)
    (h : (k, v) ∈ t) : readCount t k = some v := by
  induction t with
  | nil => simp at h
  | cons a t ih =>
    simp only [List.map_cons, List.nodup_cons] at hk
    unfold readCount
    rcases List.mem_cons.1 h with rfl | h'
    · simp [List.find?_cons]
    · have hne : a.1 ≠ k := by
        intro e
        have hmem : (k, v).1 ∈ t.map Prod.fst := List.mem_map_of_mem Prod.fst h'
        exact hk.1 (e ▸ hmem)
      simp only [List.find?_cons, hne, decide_False]
      exact ih hk.2 h'


/-- C1: for a dissociation summary (an object: its keys are distinct) and an
integer class target `n`, the list returned by `detecterConflitsDisso` holds,
for each code of `details` whose count is strictly greater than `n`, exactly one
record, carrying that code, its count and `nbClasses = n`; and every record of
the list is for a code of `details` whose count is strictly greater than `n`. -/
theorem detecterConflitsDisso_records (s : StatsDisso) (n : Int)
    (hkeys : (s.details.map Prod.fst).Nodup) :
    (∀ code count, readCount s.details code = some count → n < (count : Int) →
        (detecterConflitsDisso s n).filter (fun r => decide (r.code = code)) =
          [mkConflict code count n] ∧
        (mkConflict code count n).code = code ∧ (mkConflict code count n).count = count ∧
        (mkConflict code count n).nbClasses = n) ∧
    (∀ r ∈ detecterConflitsDisso s n,
        r.nbClasses = n ∧ readCount s.details r.code = some r.count ∧ n < (r.count : Int)) := by
  have hperm := entries_perm s.details
  have hnd : ((entries s.details).map Prod.fst).Nodup :=
    (List.Perm.nodup_iff (hperm.map Prod.fst)).2 hkeys
  constructor
  · intro code count hc hlt
    refine ⟨?_, rfl, rfl, rfl⟩
    have hmem : (code, count) ∈ entries s.details :=
      hperm.mem_iff.2 (count_eq_some_mem _ _ _ hc)
    rw [detecterConflitsDisso_eq, List.filter_map]
    have hcomp : ((fun r : Conflict => decide (r.code = code)) ∘ fun e : String × Nat =>
          mkConflict e.1 e.2 n) = fun e => decide (e.1 = code) := by
      funext a
      simp [mkConflict]
    have hswap : List.filter (fun e : String × Nat => decide (e.1 = code))
          (List.filter (fun a => decide ((a.2 : Int) > n)) (entries s.details)) =
        List.filter (fun a => decide ((a.2 : Int) > n))
          (List.filter (fun e => decide (e.1 = code)) (entries s.details)) := by
      simp only [List.filter_filter, Bool.and_comm]
    rw [hcomp, hswap, filter_key_of_nodup _ hnd code count hmem]
    simp [hlt]
  · intro r hr
    rw [detecterConflitsDisso_eq] at hr
    obtain ⟨e, he, rfl⟩ := List.mem_map.1 hr
    obtain ⟨he1, he2⟩ := List.mem_filter.1 he
    simp only [gt_iff_lt, decide_eq_true_eq] at he2
    refine ⟨rfl, ?_, he2⟩
    exact mem_count_eq_some _ hkeys e.1 e.2 (hperm.mem_iff.1 he1)

/-- The theorem of C1 at the summary with details D1: 5, D2: 2 and target 3. -/
theorem detecterConflitsDisso_records_witness :
    (([("D1", 5), ("D2", 2)] : FreqTable).map Prod.fst).Nodup ∧
    (detecterConflitsDisso ⟨2, 7, [("D1", 5), ("D2", 2)], []⟩ 3).filter
        (fun r => decide (r.code = "D1")) = [mkConflict "D1" 5 3] :=
  ⟨by decide,
    ((detecterConflitsDisso_records ⟨2, 7, [("D1", 5), ("D2", 2)], []⟩ 3 (by decide)).1
      "D1" 5 (by decide) (by decide)).1⟩

/-- With details D1: 5, D2: 2 and target 3 the result is the single record for D1. -/
theorem detecterConflitsDisso_example :
    detecterConflitsDisso ⟨2, 7, [("D1", 5), ("D2", 2)], []⟩ 3 = [mkConflict "D1" 5 3] := by
  decide

/-! ## The report: failure cases -/

/-- The two failure messages differ. -/
theorem missingTableMessage_ne_emptyTableMessage : missingTableMessage ≠ emptyTableMessage := by
  decide

/-- C2: as a function of the optional table, `getConsolidationStats` returns
`success = false` with the missing-table message exactly when the table is
absent, `success = false` with the empty-table message exactly when the table
is present with at most one row, and `success = true` with all nine aggregate
fields exactly in the remaining case; whenever `success = false` none of the
nine aggregate fields is present. -/
theorem getConsolidationStats_cases (consoSheet : Option (List Row)) :
    ((getConsolidationStats consoSheet).success = false ∧
        (getConsolidationStats consoSheet).error = some missingTableMessage ↔
      consoSheet = none) ∧
    ((getConsolidationStats consoSheet).success = false ∧
        (getConsolidationStats consoSheet).error = some emptyTableMessage ↔
      ∃ data, consoSheet = some data ∧ data.length ≤ 1) ∧
    ((getConsolidationStats consoSheet).success = true ∧
        (getConsolidationStats consoSheet).error = none ∧
        (getConsolidationStats consoSheet).effectifs.isSome = true ∧
        (getConsolidationStats consoSheet).parite.isSome = true ∧
        (getConsolidationStats consoSheet).lv2.isSome = true ∧
        (getConsolidationStats consoSheet).options.isSome = true ∧
        (getConsolidationStats consoSheet).combos.isSome = true ∧
        (getConsolidationStats consoSheet).global.isSome = true ∧
        (getConsolidationStats consoSheet).dispositifs.isSome = true ∧
        (getConsolidationStats consoSheet).asso.isSome = true ∧
        (getConsolidationStats consoSheet).disso.isSome = true ↔
      ∃ data, consoSheet = some data ∧ 1 < data.length) ∧
    ((getConsolidationStats consoSheet).success = false →
        (getConsolidationStats consoSheet).effectifs = none ∧
        (getConsolidationStats consoSheet).parite = none ∧
        (getConsolidationStats consoSheet).lv2 = none ∧
        (getConsolidationStats consoSheet).options = none ∧
        (getConsolidationStats consoSheet).combos = none ∧
        (getConsolidationStats consoSheet).global = none ∧
        (getConsolidationStats consoSheet).dispositifs = none ∧
        (getConsolidationStats consoSheet).asso = none ∧
        (getConsolidationStats consoSheet).disso = none) := by
  have hne := missingTableMessage_ne_emptyTableMessage
  cases consoSheet with
  | none =>
    simp [getConsolidationStats, failure, hne]
  | some data =>
    by_cases h : data.length ≤ 1
    · simp [getConsolidationStats, failure, h, hne.symm]
    · have h' : 1 < data.length := Nat.lt_of_not_le h
      simp [getConsolidationStats, h, h']

/-- The theorem of C2 at a table that holds its header row only. -/
theorem getConsolidationStats_cases_witness :
    (getConsolidationStats (some [[.str "ID"]])).success = false ∧
    (getConsolidationStats (some [[.str "ID"]])).error = some emptyTableMessage ∧
    (getConsolidationStats (some [[.str "ID"]])).effectifs = none :=
  ⟨by decide, by decide,
    ((getConsolidationStats_cases (some [[.str "ID"]])).2.2.2 (by decide)).1⟩

/-! ## Column resolution: properties -/

/-- The method `indexOf` returns `-1` exactly for a string that is not an element. -/
theorem indexOf_eq_neg_one (l : List String) (x : String) : indexOf l x = -1 ↔ x ∉ l := by
  unfold indexOf
  by_cases h : x ∈ l
  · have := List.indexOf_lt_length.2 h
    simp only [this, if_true, h, not_true_eq_false, iff_false]
    omega
  · have : ¬ List.indexOf x l < l.length := fun hlt => h (List.indexOf_lt_length.1 hlt)
    simp [this, h]

/-- For an element, `indexOf` returns its first position. -/
theorem indexOf_of_mem (l : List String) (x : String) (h : x ∈ l) :
    ∃ i : Nat, indexOf l x = (i : Int) ∧ l[i]? = some x ∧ ∀ y ∈ l.take i, y ≠ x := by
  induction l with
  | nil => simp at h
  | cons a l ih =>
    by_cases hax : a = x
    · refine ⟨0, ?_, ?_, ?_⟩
      · simp [indexOf, hax, List.indexOf_cons]
      · simp [hax]
      · simp
    · have hx : x ∈ l := by
        rcases List.mem_cons.1 h with e | e
        · exact absurd e.symm hax
        · exact e
      obtain ⟨i, h1, h2, h3⟩ := ih hx
      refine ⟨i + 1, ?_, ?_, ?_⟩
      · have hlt := List.indexOf_lt_length.2 hx
        unfold indexOf at h1 ⊢
        simp only [hlt, if_true] at h1
        have hi : List.indexOf x l = i := by exact_mod_cast h1
        have hbeq : (a == x) = false := by simpa using hax
        have hlt' : i < l.length := hi ▸ hlt
        have e : List.indexOf x (a :: l) = i + 1 := by simp [List.indexOf_cons, hbeq, hi]
        simp [e, hlt']
      · simpa using h2
      · intro y hy
        simp only [List.take_succ_cons, List.mem_cons] at hy
        rcases hy with e | e
        · exact e ▸ hax
        · exact h3 y e

/-- What the candidate loop returns. -/
theorem findColumnLoop_spec (normalized : List String) (cands : List String) :
    (findColumnLoop normalized cands = -1 ↔ ∀ c ∈ cands, toUpperCase c ∉ normalized) ∧
    (findColumnLoop normalized cands = -1 ∨
      ∃ (j i : Nat) (c : String),
        cands[j]? = some c ∧ (∀ c' ∈ cands.take j, toUpperCase c' ∉ normalized) ∧
        normalized[i]? = some (toUpperCase c) ∧
        (∀ y ∈ normalized.take i, y ≠ toUpperCase c) ∧
        findColumnLoop normalized cands = (i : Int)) := by
  induction cands with
  | nil => simp [findColumnLoop]
  | cons name rest ih =>
    by_cases hm : toUpperCase name ∈ normalized
    · obtain ⟨i, h1, h2, h3⟩ := indexOf_of_mem normalized _ hm
      have hne : indexOf normalized (toUpperCase name) ≠ -1 := by
        rw [h1]; omega
      have hval : findColumnLoop normalized (name :: rest) = (i : Int) := by
        rw [h1] at hne
        simp only [findColumnLoop, h1, hne, ne_eq, not_false_eq_true, if_true]
      constructor
      · rw [hval]
        constructor
        · intro h; omega
        · intro h; exact absurd hm (h name (List.mem_cons_self _ _))
      · right
        exact ⟨0, i, name, by simp, by simp, h2, h3, hval⟩
    · have heq : indexOf normalized (toUpperCase name) = -1 :=
        (indexOf_eq_neg_one _ _).2 hm
      have hval : findColumnLoop normalized (name :: rest) = findColumnLoop normalized rest := by
        simp only [findColumnLoop, heq, ne_eq, not_true_eq_false, if_false]
      rw [hval]
      constructor
      · rw [ih.1]
        constructor
        · intro h c hc
          rcases List.mem_cons.1 hc with e | e
          · exact e ▸ hm
          · exact h c e
        · intro h c hc
          exact h c (List.mem_cons_of_mem _ hc)
      · rcases ih.2 with h | ⟨j, i, c, h1, h2, h3, h4, h5⟩
        · exact Or.inl h
        · right
          refine ⟨j + 1, i, c, by simpa using h1, ?_, h3, h4, h5⟩
          intro c' hc'
          simp only [List.take_succ_cons, List.mem_cons] at hc'
          rcases hc' with e | e
          · exact e ▸ hm
          · exact h2 c' e

/-- The candidate order wins over the header order: the header holds SEX before
SEXE, the candidate list names SEXE first, and the result is the index of SEXE. -/
theorem findColumn_priority_example :
    findColumn [.str "Nom", .str " sex ", .num 3, .str "Sexe"] ["SEXE", "SEX"] = 3 := by
  decide

/-! ## Column resolution: case and white space -/

/-- Upper-casing a lower-case ASCII letter gives the letter 32 code points below. -/
theorem upperChar_toNat_of_lower (c : Char) (h1 : 97 ≤ c.toNat) (h2 : c.toNat ≤ 122) :
    (upperChar c).toNat = c.toNat - 32 := by
  unfold upperChar
  rw [if_pos ⟨h1, h2⟩]
  generalize c.toNat = n at h1 h2
  interval_cases n <;> rfl

/-- Upper-casing does not change whether a character is white space. -/
theorem isWhiteSpace_upperChar (c : Char) : isWhiteSpace (upperChar c) = isWhiteSpace c := by
  by_cases h : 97 ≤ c.toNat ∧ c.toNat ≤ 122
  · have e := upperChar_toNat_of_lower c h.1 h.2
    have hc : isWhiteSpace c = false := by
      unfold isWhiteSpace
      simp only [Bool.or_eq_false_iff, Bool.and_eq_false_iff, decide_eq_false_iff_not]
      omega
    have hu : isWhiteSpace (upperChar c) = false := by
      unfold isWhiteSpace
      rw [e]
      simp only [Bool.or_eq_false_iff, Bool.and_eq_false_iff, decide_eq_false_iff_not]
      omega
    rw [hc, hu]
  · unfold upperChar
    rw [if_neg h]

/-- Characters that differ in case only have the same upper case. -/
theorem upperChar_eq_of_caseChange (a b : Char) (h : CaseChange a b) :
    upperChar a = upperChar b := by
  have key : ∀ x y : Char, 65 ≤ x.toNat → x.toNat ≤ 90 → y.toNat = x.toNat + 32 →
      upperChar x = upperChar y := by
    intro x y h1 h2 h3
    have hx : upperChar x = x := by
      unfold upperChar
      rw [if_neg]
      omega
    have hy : upperChar y = x := by
      unfold upperChar
      rw [if_pos (by omega)]
      have : y.toNat - 32 = x.toNat := by omega
      rw [this, Char.ofNat_toNat]
    rw [hx, hy]
  rcases h with h | ⟨h1, h2, h3⟩ | ⟨h1, h2, h3⟩
  · rw [h]
  · exact key a b h1 h2 h3
  · exact (key b a h1 h2 h3).symm


/-- Stripping white space at both ends of a list of characters. -/
theorem trim_data (s : String) :
    (trim s).data = (s.data.dropWhile isWhiteSpace).rdropWhile isWhiteSpace := rfl

/-- White space appended at the end is stripped. -/
theorem rdropWhile_append_of_all (m r : List Char) (hr : ∀ c ∈ r, isWhiteSpace c = true) :
    (m ++ r).rdropWhile isWhiteSpace = m.rdropWhile isWhiteSpace := by
  unfold List.rdropWhile
  rw [List.reverse_append, List.dropWhile_append_of_pos]
  intro a ha
  exact hr a (List.mem_reverse.1 ha)

/-- White space around a text does not change what `trim` returns. -/
theorem trimChars_pad (l m r : List Char) (hl : ∀ c ∈ l, isWhiteSpace c = true)
    (hr : ∀ c ∈ r, isWhiteSpace c = true) :
    ((l ++ m ++ r).dropWhile isWhiteSpace).rdropWhile isWhiteSpace =
      (m.dropWhile isWhiteSpace).rdropWhile isWhiteSpace := by
  rw [List.append_assoc, List.dropWhile_append_of_pos hl]
  induction m with
  | nil =>
    have h1 : ([] ++ r).dropWhile isWhiteSpace = [] := by
      rw [List.nil_append, List.dropWhile_eq_nil_iff]
      exact hr
    rw [h1]
    simp
  | cons a m ih =>
    by_cases ha : isWhiteSpace a = true
    · simp only [List.cons_append, List.dropWhile_cons, ha, if_true]
      exact ih
    · simp only [List.cons_append, List.dropWhile_cons, ha]
      exact rdropWhile_append_of_all (a :: m) r hr

/-- Upper-casing commutes with stripping white space. -/
theorem map_upperChar_trimChars (m : List Char) :
    ((m.dropWhile isWhiteSpace).rdropWhile isWhiteSpace).map upperChar =
      ((m.map upperChar).dropWhile isWhiteSpace).rdropWhile isWhiteSpace := by
  have hcomp : (isWhiteSpace ∘ upperChar) = isWhiteSpace := by
    funext c
    exact isWhiteSpace_upperChar c
  have hd : ∀ x : List Char, (x.dropWhile isWhiteSpace).map upperChar =
      (x.map upperChar).dropWhile isWhiteSpace := by
    intro x
    rw [List.dropWhile_map, hcomp]
  unfold List.rdropWhile
  rw [List.map_reverse, hd, List.map_reverse, hd]

/-- Strings that differ in case only have the same upper-cased characters. -/
theorem map_upperChar_of_forall₂ (x y : List Char) (h : List.Forall₂ CaseChange x y) :
    x.map upperChar = y.map upperChar := by
  induction h with
  | nil => rfl
  | cons hab _ ih => simp [upperChar_eq_of_caseChange _ _ hab, ih]

/-- Case variants have the same upper case. -/
theorem toUpperCase_eq_of_caseVariant (s t : String) (h : CaseVariant s t) :
    toUpperCase s = toUpperCase t := by
  unfold toUpperCase
  rw [map_upperChar_of_forall₂ _ _ h]

/-- Variants in case and surrounding white space are normalised to the same text. -/
theorem normalize_eq_of_caseSpaceVariant (s t : String) (h : CaseSpaceVariant s t) :
    toUpperCase (trim s) = toUpperCase (trim t) := by
  obtain ⟨l, r, l', r', core, core', hl, hr, hl', hr', hs, ht, hc⟩ := h
  have e : (toUpperCase (trim s)).data = (toUpperCase (trim t)).data := by
    show ((trim s).data).map upperChar = ((trim t).data).map upperChar
    rw [trim_data, trim_data, hs, ht, trimChars_pad l core r hl hr,
      trimChars_pad l' core' r' hl' hr', map_upperChar_trimChars, map_upperChar_trimChars,
      map_upperChar_of_forall₂ _ _ hc]
  exact String.ext e

/-- The result of `findColumn` depends on the header cells through their
normalised text and on the candidates through their upper case. -/
theorem findColumnLoop_congr (normalized : List String) (names names' : List String)
    (h : names.map toUpperCase = names'.map toUpperCase) :
    findColumnLoop normalized names = findColumnLoop normalized names' := by
  induction names generalizing names' with
  | nil =>
    cases names' with
    | nil => rfl
    | cons b t => simp at h
  | cons a t ih =>
    cases names' with
    | nil => simp at h
    | cons b t' =>
      simp only [List.map_cons, List.cons.injEq] at h
      simp only [findColumnLoop, h.1, ih t' h.2]

/-- The method `trim` returns the empty string exactly for a blank string. -/
theorem trim_eq_empty_iff (s : String) : trim s = "" ↔ Blank s := by
  have h1 : trim s = "" ↔ (trim s).data = [] := by
    constructor
    · intro h; rw [h]
    · intro h; exact String.ext h
  rw [h1, trim_data, List.rdropWhile_eq_nil_iff]
  unfold Blank
  constructor
  · intro h
    by_cases hnil : s.data.dropWhile isWhiteSpace = []
    · exact List.dropWhile_eq_nil_iff.1 hnil
    · exfalso
      have hhead := List.head_dropWhile_not isWhiteSpace s.data hnil
      have := h _ (List.head_mem hnil)
      rw [this] at hhead
      exact absurd hhead (by simp)
  · intro h x hx
    exact h x ((List.dropWhile_sublist isWhiteSpace).subset hx)

/-- Upper-casing returns the empty string only for the empty string. -/
theorem toUpperCase_eq_empty_iff (s : String) : toUpperCase s = "" ↔ s = "" := by
  constructor
  · intro h
    have h' : (toUpperCase s).data = [] := by rw [h]
    have : s.data = [] := by
      simpa [toUpperCase] using h'
    exact String.ext this
  · intro h; rw [h]; rfl

/-- A digit is not white space. -/
theorem isWhiteSpace_digitChar (n : Nat) : isWhiteSpace (Nat.digitChar n) = false := by
  by_cases h : n < 16
  · interval_cases n <;> rfl
  · have e : Nat.digitChar n = '*' := by
      unfold Nat.digitChar
      rw [if_neg (by omega), if_neg (by omega), if_neg (by omega), if_neg (by omega),
        if_neg (by omega), if_neg (by omega), if_neg (by omega), if_neg (by omega),
        if_neg (by omega), if_neg (by omega), if_neg (by omega), if_neg (by omega),
        if_neg (by omega), if_neg (by omega), if_neg (by omega), if_neg (by omega)]
    rw [e]
    rfl

/-- The digits of a number hold no white space. -/
theorem toDigitsCore_no_space (b : Nat) (fuel n : Nat) (ds : List Char)
    (hds : ∀ c ∈ ds, isWhiteSpace c = false) :
    ∀ c ∈ Nat.toDigitsCore b fuel n ds, isWhiteSpace c = false := by
  induction fuel generalizing n ds with
  | zero => simpa [Nat.toDigitsCore] using hds
  | succ fuel ih =>
    have hcons : ∀ c ∈ Nat.digitChar (n % b) :: ds, isWhiteSpace c = false := by
      intro c hc
      rcases List.mem_cons.1 hc with e | e
      · rw [e]; exact isWhiteSpace_digitChar _
      · exact hds c e
    unfold Nat.toDigitsCore
    by_cases h : n / b = 0
    · simp only [h, if_true]
      exact hcons
    · simp only [h, if_false]
      exact ih _ _ hcons

/-- A number has at least one digit. -/
theorem toDigitsCore_ne_nil (b : Nat) (fuel n : Nat) (ds : List Char) (hf : 0 < fuel) :
    Nat.toDigitsCore b fuel n ds ≠ [] := by
  induction fuel generalizing n ds with
  | zero => omega
  | succ fuel ih =>
    unfold Nat.toDigitsCore
    by_cases h : n / b = 0
    · simp [h]
    · simp only [h, if_false]
      cases fuel with
      | zero => simp [Nat.toDigitsCore]
      | succ f => exact ih _ _ (Nat.succ_pos f)

/-- The string form of a number is not blank. -/
theorem numberToString_not_blank (n : Int) : ¬ Blank (numberToString n) := by
  have hrepr : ∀ m : Nat, ¬ Blank (Nat.repr m) := by
    intro m hb
    have hne : (Nat.repr m).data ≠ [] := toDigitsCore_ne_nil 10 (m + 1) m [] (Nat.succ_pos m)
    obtain ⟨c, hc⟩ := List.exists_mem_of_ne_nil _ hne
    have h1 := hb c hc
    have h2 : isWhiteSpace c = false := toDigitsCore_no_space 10 (m + 1) m [] (by simp) c hc
    rw [h1] at h2
    exact absurd h2 (by simp)
  cases n with
  | ofNat m => exact hrepr m
  | negSucc m =>
    intro hb
    have hmem : '-' ∈ (numberToString (Int.negSucc m)).data := by
      show '-' ∈ ("-" ++ Nat.repr (m + 1)).data
      simp [String.data_append]
    have := hb _ hmem
    exact absurd this (by decide)

/-- A property read gives `undefined` exactly outside the row. -/
theorem at_eq_none_iff (row : Row) (idx : Int) :
    row.at idx = none ↔ idx < 0 ∨ (row.length : Int) ≤ idx := by
  unfold Row.at
  by_cases h : idx < 0
  · simp [h]
  · simp only [h, if_false, false_or, List.get?_eq_getElem?, List.getElem?_eq_none_iff]
    omega

/-- The filter `row => row[0]` keeps the rows whose first cell is neither empty
nor the number 0. -/
theorem truthy_first_cell (row : Row) :
    truthy (row.at 0) = (!firstCellEmpty row && decide (row.at 0 ≠ some (.num 0))) := by
  unfold firstCellEmpty truthy
  rcases row.at 0 with _ | c
  · rfl
  · cases c with
    | str s => by_cases h : s = "" <;> simp [Cell.truthy, Cell.isEmpty, h]
    | num n => by_cases h : n = 0 <;> simp [Cell.truthy, Cell.isEmpty, h]
    | empty => simp [Cell.truthy, Cell.isEmpty]

/-- A row whose first cell is empty does not pass the filter `row => row[0]`. -/
theorem truthy_of_firstCellEmpty (row : Row) (h : firstCellEmpty row = true) :
    truthy (row.at 0) = false := by
  rw [truthy_first_cell, h]
  rfl

/-- C7: for every table with at least one data row, inserting among the data
rows, at any position, a row whose first cell is empty (whatever its other
cells hold) leaves the whole report of `getConsolidationStats` unchanged. -/
theorem getConsolidationStats_insert_empty_row (header : Row) (before after : List Row)
    (row : Row) (hrows : before ++ after ≠ []) (hrow : firstCellEmpty row = true) :
    getConsolidationStats (some (header :: (before ++ row :: after))) =
      getConsolidationStats (some (header :: (before ++ after))) := by
  have h1 : ¬ (header :: (before ++ row :: after)).length ≤ 1 := by
    simp only [List.length_cons, List.length_append]
    omega
  have h2 : ¬ (header :: (before ++ after)).length ≤ 1 := by
    have : 0 < (before ++ after).length := List.length_pos.2 hrows
    simp only [List.length_cons]
    omega
  have hrowsEq : dataRows (header :: (before ++ row :: after)) =
      dataRows (header :: (before ++ after)) := by
    simp [dataRows, List.filter_cons, truthy_of_firstCellEmpty row hrow]
  simp only [getConsolidationStats, h1, h2, if_false, hrowsEq, List.headD_cons]

/-- The theorem of C7 at a table with two data rows and a padding row, with
other cells filled in, inserted between them. -/
theorem getConsolidationStats_insert_empty_row_witness :
    ([[Cell.str "a", .str "F", .str "ESP"]] ++ [[Cell.str "b", .str "M", .str "ITA"]] ≠ []) ∧
    firstCellEmpty [.empty, .str "F", .str "ALL"] = true ∧
    getConsolidationStats (some ([.str "ID", .str "SEXE", .str "LV2"] ::
        ([[.str "a", .str "F", .str "ESP"]] ++
          [.empty, .str "F", .str "ALL"] :: [[.str "b", .str "M", .str "ITA"]]))) =
      getConsolidationStats (some ([.str "ID", .str "SEXE", .str "LV2"] ::
        ([[.str "a", .str "F", .str "ESP"]] ++ [[.str "b", .str "M", .str "ITA"]]))) :=
  ⟨by decide, by decide,
    getConsolidationStats_insert_empty_row [.str "ID", .str "SEXE", .str "LV2"]
      [[.str "a", .str "F", .str "ESP"]] [[.str "b", .str "M", .str "ITA"]]
      [.empty, .str "F", .str "ALL"] (by decide) (by decide)⟩

/-- The counters of `calculerParite` add up to the number of rows, from any
starting counters. -/
theorem pariteCounts_fold_sum (rows : List Row) (sexeIdx : Int) (init : PariteCounts) :
    (rows.foldl
      (fun counts row =>
        let sexe := normCell row sexeIdx
        if sexe = "F" then { counts with F := counts.F + 1 }
        else if sexe = "M" then { counts with M := counts.M + 1 }
        else { counts with inconnu := counts.inconnu + 1 })
      init).F +
    (rows.foldl
      (fun counts row =>
        let sexe := normCell row sexeIdx
        if sexe = "F" then { counts with F := counts.F + 1 }
        else if sexe = "M" then { counts with M := counts.M + 1 }
        else { counts with inconnu := counts.inconnu + 1 })
      init).M +
    (rows.foldl
      (fun counts row =>
        let sexe := normCell row sexeIdx
        if sexe = "F" then { counts with F := counts.F + 1 }
        else if sexe = "M" then { counts with M := counts.M + 1 }
        else { counts with inconnu := counts.inconnu + 1 })
      init).inconnu = init.F + init.M + init.inconnu + rows.length := by
  induction rows generalizing init with
  | nil => simp
  | cons row rows ih =>
    simp only [List.foldl_cons, List.length_cons]
    rw [ih]
    by_cases hF : normCell row sexeIdx = "F"
    · rw [if_pos hF]
      show init.F + 1 + init.M + init.inconnu + rows.length = _
      omega
    · by_cases hM : normCell row sexeIdx = "M"
      · rw [if_neg hF, if_pos hM]
        show init.F + (init.M + 1) + init.inconnu + rows.length = _
        omega
      · rw [if_neg hF, if_neg hM]
        show init.F + init.M + (init.inconnu + 1) + rows.length = _
        omega

/-- C8: for every row set and every column index (the absent sentinel
included), the result of `calculerParite` satisfies `F + M + inconnu` = number
of rows, the headcount that `calculerEffectifs` returns on the same rows. -/
theorem calculerParite_sum (rows : List Row) (sexeIdx : Int) :
    (calculerParite rows sexeIdx).F + (calculerParite rows sexeIdx).M +
        (calculerParite rows sexeIdx).inconnu = rows.length ∧
    (calculerParite rows sexeIdx).F + (calculerParite rows sexeIdx).M +
        (calculerParite rows sexeIdx).inconnu = (calculerEffectifs rows).total := by
  have h := pariteCounts_fold_sum rows sexeIdx { F := 0, M := 0, inconnu := 0 }
  simp only [Nat.zero_add] at h
  exact ⟨h, h⟩

/-! ## Binary64 arithmetic: error bounds -/

/-- The halving loop finds the leading bit. -/
theorem log2Loop_bounds (fuel n : Nat) (hf : n ≤ fuel) (hn : n ≠ 0) :
    2 ^ log2Loop fuel n ≤ n ∧ n < 2 ^ (log2Loop fuel n + 1) := by
  induction fuel generalizing n with
  | zero => omega
  | succ fuel ih =>
    unfold log2Loop
    by_cases h2 : 2 ≤ n
    · rw [if_pos h2]
      have hh := ih (n / 2) (by omega) (by omega)
      have e1 : 2 ^ (log2Loop fuel (n / 2) + 1) = 2 * 2 ^ log2Loop fuel (n / 2) := by
        rw [pow_succ]; ring
      have e2 : 2 ^ (log2Loop fuel (n / 2) + 1 + 1) = 2 * 2 ^ (log2Loop fuel (n / 2) + 1) := by
        rw [pow_succ]; ring
      rw [e2]
      rw [e1] at hh ⊢
      omega
    · rw [if_neg h2]
      simp
      omega

/-- The leading bit of a positive number. -/
theorem log2_bounds (n : Nat) (hn : n ≠ 0) : 2 ^ log2 n ≤ n ∧ n < 2 ^ (log2 n + 1) :=
  log2Loop_bounds n n (Nat.le_refl n) hn

/-- Rounding to the nearest integer moves a fraction by at most one half. -/
theorem roundHalfEven_bounds (n d : Nat) (hd : 0 < d) :
    2 * d * roundHalfEven n d ≤ 2 * n + d ∧ 2 * n ≤ 2 * d * roundHalfEven n d + d := by
  have hdiv := Nat.div_add_mod n d
  have hmod := Nat.mod_lt n hd
  unfold roundHalfEven
  simp only
  generalize n / d = q at hdiv
  generalize n % d = r at hdiv hmod
  have hq : 2 * d * q = 2 * (d * q) := by ring
  have hq1 : 2 * d * (q + 1) = 2 * (d * q) + 2 * d := by ring
  split_ifs <;> (try rw [hq1]) <;> (try rw [hq]) <;> omega


/-- The exponent found by `floorLog2` is not above the fraction. -/
theorem floorLog2_le (a b : Nat) (ha : 0 < a) (hb : 0 < b) :
    (2 : ℚ) ^ floorLog2 a b ≤ (a : ℚ) / b := by
  have hbq : (0 : ℚ) < b := by exact_mod_cast hb
  have hla := (log2_bounds a (by omega)).1
  have hlb := (log2_bounds b (by omega)).2
  have hlaq : (2 : ℚ) ^ log2 a ≤ a := by exact_mod_cast hla
  have hlbq : (b : ℚ) < 2 ^ (log2 b + 1) := by exact_mod_cast hlb
  have hfallback : (2 : ℚ) ^ ((log2 a : ℤ) - (log2 b : ℤ) - 1) ≤ (a : ℚ) / b := by
    have e : (2 : ℚ) ^ ((log2 a : ℤ) - (log2 b : ℤ) - 1) =
        (2 : ℚ) ^ log2 a / 2 ^ (log2 b + 1) := by
      have : ((log2 a : ℤ) - (log2 b : ℤ) - 1) = (log2 a : ℤ) - ((log2 b + 1 : ℕ) : ℤ) := by
        push_cast; ring
      rw [this, zpow_sub₀ (by norm_num : (2 : ℚ) ≠ 0), zpow_natCast, zpow_natCast]
    rw [e]
    have hp : (0 : ℚ) < 2 ^ (log2 b + 1) := by positivity
    rw [div_le_div_iff₀ hp hbq]
    have h1 : (2 : ℚ) ^ log2 a * b ≤ a * b := by
      exact mul_le_mul_of_nonneg_right hlaq hbq.le
    have h2 : (a : ℚ) * b ≤ a * 2 ^ (log2 b + 1) := by
      exact mul_le_mul_of_nonneg_left hlbq.le (by positivity)
    linarith
  unfold floorLog2
  simp only
  by_cases hd : (0 : ℤ) ≤ (log2 a : ℤ) - (log2 b : ℤ)
  · rw [if_pos hd]
    by_cases hc : b * 2 ^ ((log2 a : ℤ) - (log2 b : ℤ)).toNat ≤ a
    · rw [if_pos hc]
      have hcq : (b : ℚ) * 2 ^ ((log2 a : ℤ) - (log2 b : ℤ)).toNat ≤ a := by exact_mod_cast hc
      have e : (2 : ℚ) ^ ((log2 a : ℤ) - (log2 b : ℤ)) =
          (2 : ℚ) ^ ((log2 a : ℤ) - (log2 b : ℤ)).toNat := by
        conv_lhs => rw [← Int.toNat_of_nonneg hd]
        rw [zpow_natCast]
      rw [e, le_div_iff₀ hbq]
      linarith
    · rw [if_neg hc]
      exact hfallback
  · rw [if_neg hd]
    by_cases hc : b ≤ a * 2 ^ (-((log2 a : ℤ) - (log2 b : ℤ))).toNat
    · rw [if_pos hc]
      have hcq : (b : ℚ) ≤ a * 2 ^ (-((log2 a : ℤ) - (log2 b : ℤ))).toNat := by exact_mod_cast hc
      have hneg : (0 : ℤ) ≤ -((log2 a : ℤ) - (log2 b : ℤ)) := by omega
      have e : (2 : ℚ) ^ ((log2 a : ℤ) - (log2 b : ℤ)) =
          ((2 : ℚ) ^ (-((log2 a : ℤ) - (log2 b : ℤ))).toNat)⁻¹ := by
        rw [← zpow_natCast, Int.toNat_of_nonneg hneg, zpow_neg, inv_inv]
      rw [e, le_div_iff₀ hbq, inv_mul_le_iff₀ (by positivity)]
      linarith
    · rw [if_neg hc]
      exact hfallback


/-- Rounding to binary64 moves a fraction by at most half a unit in the last
place, and the unit in the last place is at most `2 ^ (-52)` times the fraction. -/
theorem roundToDouble_error (a b : Nat) (ha : 0 < a) (hb : 0 < b) :
    |(roundToDouble a b).toRat - (a : ℚ) / b| ≤ (a : ℚ) / b * (2 : ℚ) ^ (-53 : ℤ) := by
  have hbq : (0 : ℚ) < b := by exact_mod_cast hb
  have hk := floorLog2_le a b ha hb
  have ha0 : a ≠ 0 := by omega
  -- the unit in the last place
  have hulp : (2 : ℚ) ^ (-(52 - floorLog2 a b)) / 2 ≤ (a : ℚ) / b * (2 : ℚ) ^ (-53 : ℤ) := by
    have e : (2 : ℚ) ^ (-(52 - floorLog2 a b)) / 2 =
        (2 : ℚ) ^ floorLog2 a b * (2 : ℚ) ^ (-53 : ℤ) := by
      have : -(52 - floorLog2 a b) = floorLog2 a b + (-53) + 1 := by ring
      rw [this, zpow_add₀ (by norm_num : (2 : ℚ) ≠ 0), zpow_add₀ (by norm_num : (2 : ℚ) ≠ 0)]
      simp
    rw [e]
    exact mul_le_mul_of_nonneg_right hk (by positivity)
  refine le_trans ?_ hulp
  unfold roundToDouble
  rw [if_neg ha0]
  simp only
  generalize (52 - floorLog2 a b) = s
  by_cases hs : (0 : ℤ) ≤ s
  · rw [if_pos hs]
    have hr := roundHalfEven_bounds (a * 2 ^ s.toNat) b hb
    generalize roundHalfEven (a * 2 ^ s.toNat) b = m at hr
    have h1 : (2 : ℚ) * b * m ≤ 2 * (a * 2 ^ s.toNat) + b := by exact_mod_cast hr.1
    have h2 : (2 : ℚ) * (a * 2 ^ s.toNat) ≤ 2 * b * m + b := by exact_mod_cast hr.2
    have e : (2 : ℚ) ^ (-s) = ((2 : ℚ) ^ s.toNat)⁻¹ := by
      rw [← zpow_natCast, Int.toNat_of_nonneg hs, zpow_neg]
    have hp : (0 : ℚ) < 2 ^ s.toNat := by positivity
    unfold Double.toRat
    simp only
    rw [e, abs_le]
    generalize (2 : ℚ) ^ s.toNat = p at h1 h2 hp
    have hpb : (0 : ℚ) < p * b := mul_pos hp hbq
    constructor
    · rw [← sub_nonneg]
      have : (m : ℚ) * p⁻¹ - (a : ℚ) / b - -(p⁻¹ / 2) =
          (2 * b * m + b - 2 * (a * p)) / (2 * (p * b)) := by
        field_simp
        ring
      rw [this]
      apply div_nonneg
      · linarith
      · positivity
    · rw [← sub_nonneg]
      have : p⁻¹ / 2 - ((m : ℚ) * p⁻¹ - (a : ℚ) / b) =
          (2 * (a * p) + b - 2 * b * m) / (2 * (p * b)) := by
        field_simp
        ring
      rw [this]
      apply div_nonneg
      · linarith
      · positivity
  · rw [if_neg hs]
    have hr := roundHalfEven_bounds a (b * 2 ^ (-s).toNat) (by positivity)
    generalize roundHalfEven a (b * 2 ^ (-s).toNat) = m at hr
    have h1 : (2 : ℚ) * (b * 2 ^ (-s).toNat) * m ≤ 2 * a + b * 2 ^ (-s).toNat := by
      exact_mod_cast hr.1
    have h2 : (2 : ℚ) * a ≤ 2 * (b * 2 ^ (-s).toNat) * m + b * 2 ^ (-s).toNat := by
      exact_mod_cast hr.2
    have hneg : (0 : ℤ) ≤ -s := by omega
    have e : (2 : ℚ) ^ (-s) = (2 : ℚ) ^ (-s).toNat := by
      rw [← zpow_natCast, Int.toNat_of_nonneg hneg]
    have hp : (0 : ℚ) < 2 ^ (-s).toNat := by positivity
    unfold Double.toRat
    simp only
    rw [e, abs_le]
    generalize (2 : ℚ) ^ (-s).toNat = p at h1 h2 hp
    constructor
    · rw [← sub_nonneg]
      have : (m : ℚ) * p - (a : ℚ) / b - -(p / 2) =
          (2 * (b * p) * m + b * p - 2 * a) / (2 * b) := by
        field_simp
        ring
      rw [this]
      apply div_nonneg
      · linarith
      · positivity
    · rw [← sub_nonneg]
      have : p / 2 - ((m : ℚ) * p - (a : ℚ) / b) =
          (2 * a + b * p - 2 * (b * p) * m) / (2 * b) := by
        field_simp
        ring
      rw [this]
      apply div_nonneg
      · linarith
      · positivity


/-- The error bound of `roundToDouble`, the fraction 0 included. -/
theorem roundToDouble_error_of_pos_den (a b : Nat) (hb : 0 < b) :
    |(roundToDouble a b).toRat - (a : ℚ) / b| ≤ (a : ℚ) / b * (2 : ℚ) ^ (-53 : ℤ) := by
  by_cases ha : 0 < a
  · exact roundToDouble_error a b ha hb
  · have h0 : a = 0 := by omega
    subst h0
    simp [roundToDouble, Double.toRat]

/-- The denominator of a binary64 number is positive. -/
theorem Double.den_pos (x : Double) : 0 < x.den := by
  unfold Double.den
  split_ifs <;> positivity

/-- The value of a binary64 number is its numerator over its denominator. -/
theorem Double.num_div_den (x : Double) : (x.num : ℚ) / x.den = x.toRat := by
  unfold Double.num Double.den Double.toRat
  by_cases h : (0 : ℤ) ≤ x.exp
  · rw [if_pos h, if_pos h]
    have e : (2 : ℚ) ^ x.exp = (2 : ℚ) ^ x.exp.toNat := by
      rw [← zpow_natCast, Int.toNat_of_nonneg h]
    rw [e]
    push_cast
    simp
  · rw [if_neg h, if_neg h]
    have hneg : (0 : ℤ) ≤ -x.exp := by omega
    have e : (2 : ℚ) ^ x.exp = ((2 : ℚ) ^ (-x.exp).toNat)⁻¹ := by
      rw [← zpow_natCast, Int.toNat_of_nonneg hneg, zpow_neg, inv_inv]
    rw [e]
    push_cast
    rfl

/-- The method `toFixed(2)` picks an integer within one half of `100 * x`. -/
theorem toFixed2_error (x : Double) : |(toFixed2 x : ℚ) - 100 * x.toRat| ≤ 1 / 2 := by
  have hd := Double.den_pos x
  have hdq : (0 : ℚ) < x.den := by exact_mod_cast hd
  have h1 : 2 * x.den * toFixed2 x ≤ 200 * x.num + x.den := by
    unfold toFixed2
    exact Nat.mul_div_le _ _
  have h2 : 200 * x.num + x.den < 2 * x.den * (toFixed2 x + 1) := by
    unfold toFixed2
    exact Nat.lt_mul_div_succ _ (by omega)
  have h1q : (2 : ℚ) * x.den * toFixed2 x ≤ 200 * x.num + x.den := by exact_mod_cast h1
  have h2q : (200 : ℚ) * x.num + x.den < 2 * x.den * (toFixed2 x + 1) := by exact_mod_cast h2
  rw [← Double.num_div_den, abs_le]
  generalize (toFixed2 x : ℚ) = n at h1q h2q
  constructor
  · rw [← sub_nonneg]
    have : n - 100 * ((x.num : ℚ) / x.den) - -(1 / 2) =
        (2 * x.den * (n + 1) - (200 * x.num + x.den)) / (2 * x.den) := by
      field_simp
      ring
    rw [this]
    apply div_nonneg
    · linarith
    · positivity
  · rw [← sub_nonneg]
    have : 1 / 2 - (n - 100 * ((x.num : ℚ) / x.den)) =
        (200 * x.num + x.den - 2 * x.den * n) / (2 * x.den) := by
      field_simp
      ring
    rw [this]
    apply div_nonneg
    · linarith
    · positivity

/-- The percentage printed for `count` out of `total` is within one half of a
hundredth, and a rounding error below `2 ^ (-38)` hundredths, of the exact
percentage. -/
theorem ratio_error (count total : Nat) (ht : 0 < total) (hc : count ≤ total) :
    ratio count total = .fixed (ratio count total).hundredths ∧
    |((ratio count total).hundredths : ℚ) - 10000 * (count : ℚ) / total| ≤
      1 / 2 + (2 : ℚ) ^ (-38 : ℤ) := by
  have htq : (0 : ℚ) < total := by exact_mod_cast ht
  have hq1 : (count : ℚ) / total ≤ 1 := by
    rw [div_le_one htq]
    exact_mod_cast hc
  have hq0 : (0 : ℚ) ≤ (count : ℚ) / total := by positivity
  have hval : ratio count total =
      .fixed (toFixed2 (((Double.ofNat count).div (Double.ofNat total)).mul (Double.ofNat 100))) := by
    unfold ratio
    rw [if_pos ht]
  rw [hval]
  refine ⟨rfl, ?_⟩
  simp only [Ratio.hundredths]
  -- the quotient
  have hx1 : (Double.ofNat count).div (Double.ofNat total) = roundToDouble count total := by
    simp [Double.div, Double.ofNat, Double.num, Double.den]
  rw [hx1]
  have e1 := roundToDouble_error_of_pos_den count total ht
  generalize roundToDouble count total = x1 at e1
  -- the product
  have hx2 : x1.mul (Double.ofNat 100) = roundToDouble (x1.num * 100) x1.den := by
    simp [Double.mul, Double.ofNat, Double.num, Double.den]
  rw [hx2]
  have e2 := roundToDouble_error_of_pos_den (x1.num * 100) x1.den (Double.den_pos x1)
  have hprod : ((x1.num * 100 : ℕ) : ℚ) / x1.den = 100 * x1.toRat := by
    rw [← Double.num_div_den]
    push_cast
    ring
  rw [hprod] at e2
  generalize roundToDouble (x1.num * 100) x1.den = x2 at e2
  have e3 := toFixed2_error x2
  generalize (toFixed2 x2 : ℚ) = n at e3
  generalize x1.toRat = v1 at e1 e2
  generalize x2.toRat = v2 at e2 e3
  have hmul : 10000 * (count : ℚ) / total = 10000 * ((count : ℚ) / total) := by ring
  rw [hmul]
  generalize (count : ℚ) / total = q at e1 hq0 hq1
  have hu : (2 : ℚ) ^ (-53 : ℤ) = 1 / 9007199254740992 := by norm_num
  have hη : (2 : ℚ) ^ (-38 : ℤ) = 1 / 274877906944 := by norm_num
  rw [hu] at e1 e2
  rw [hη]
  rw [abs_le] at e1 e2 e3 ⊢
  have hv1 : v1 ≤ 2 := by nlinarith [e1.2]
  have hv1' : (0 : ℚ) ≤ v1 := by nlinarith [e1.1]
  constructor
  · nlinarith [e1.1, e2.1, e3.1]
  · nlinarith [e1.2, e2.2, e3.2]


/-! ## Gender parity: percentages -/

/-- The counters F and M cover at most the rows. -/
theorem calculerParite_F_add_M_le (rows : List Row) (sexeIdx : Int) :
    (calculerParite rows sexeIdx).F + (calculerParite rows sexeIdx).M ≤ rows.length := by
  have h : (pariteCounts rows sexeIdx).F + (pariteCounts rows sexeIdx).M +
      (pariteCounts rows sexeIdx).inconnu = 0 + 0 + 0 + rows.length :=
    pariteCounts_fold_sum rows sexeIdx { F := 0, M := 0, inconnu := 0 }
  show (pariteCounts rows sexeIdx).F + (pariteCounts rows sexeIdx).M ≤ rows.length
  omega

/-- C9 (amended): for every row set in which at least one row has sex F or M,
the two percentages returned by `calculerParite` (each printed with two
decimals) sum to 100.00 up to one hundredth: `ratioF + ratioM` is 99.99, 100.00
or 100.01. -/
theorem calculerParite_ratio_sum (rows : List Row) (sexeIdx : Int)
    (h : 0 < (calculerParite rows sexeIdx).F + (calculerParite rows sexeIdx).M) :
    9999 ≤ (calculerParite rows sexeIdx).ratioF.hundredths +
        (calculerParite rows sexeIdx).ratioM.hundredths ∧
    (calculerParite rows sexeIdx).ratioF.hundredths +
        (calculerParite rows sexeIdx).ratioM.hundredths ≤ 10001 := by
  have hF : (calculerParite rows sexeIdx).ratioF =
      ratio (calculerParite rows sexeIdx).F
        ((calculerParite rows sexeIdx).F + (calculerParite rows sexeIdx).M) := rfl
  have hM : (calculerParite rows sexeIdx).ratioM =
      ratio (calculerParite rows sexeIdx).M
        ((calculerParite rows sexeIdx).F + (calculerParite rows sexeIdx).M) := rfl
  rw [hF, hM]
  generalize (calculerParite rows sexeIdx).F = f at h
  generalize (calculerParite rows sexeIdx).M = m at h
  have e1 := (ratio_error f (f + m) h (by omega)).2
  have e2 := (ratio_error m (f + m) h (by omega)).2
  generalize (ratio f (f + m)).hundredths = a at e1
  generalize (ratio m (f + m)).hundredths = b at e2
  have hpos : (0 : ℚ) < ((f + m : ℕ) : ℚ) := by exact_mod_cast h
  have hsum : 10000 * (f : ℚ) / ((f + m : ℕ) : ℚ) + 10000 * (m : ℚ) / ((f + m : ℕ) : ℚ) =
      10000 := by
    have hc : ((f + m : ℕ) : ℚ) = (f : ℚ) + (m : ℚ) := by push_cast; rfl
    have hne : (f : ℚ) + (m : ℚ) ≠ 0 := by
      rw [← hc]
      exact ne_of_gt hpos
    rw [hc]
    field_simp
    ring
  have hη : (2 : ℚ) ^ (-38 : ℤ) = 1 / 274877906944 := by norm_num
  rw [hη, abs_le] at e1 e2
  have lo : (9998 : ℚ) < ((a + b : ℕ) : ℚ) := by
    push_cast
    linarith [e1.1, e2.1]
  have hi : ((a + b : ℕ) : ℚ) < 10002 := by
    push_cast
    linarith [e1.2, e2.2]
  have lo' : 9998 < a + b := by exact_mod_cast lo
  have hi' : a + b < 10002 := by exact_mod_cast hi
  omega

/-- The theorem of C9 (amended) at one F row and two M rows. -/
theorem calculerParite_ratio_sum_witness :
    0 < (calculerParite [[.str "F"], [.str "M"], [.str "M"]] 0).F +
        (calculerParite [[.str "F"], [.str "M"], [.str "M"]] 0).M ∧
    9999 ≤ (calculerParite [[.str "F"], [.str "M"], [.str "M"]] 0).ratioF.hundredths +
        (calculerParite [[.str "F"], [.str "M"], [.str "M"]] 0).ratioM.hundredths ∧
    (calculerParite [[.str "F"], [.str "M"], [.str "M"]] 0).ratioF.hundredths +
        (calculerParite [[.str "F"], [.str "M"], [.str "M"]] 0).ratioM.hundredths ≤ 10001 :=
  ⟨by decide, calculerParite_ratio_sum [[.str "F"], [.str "M"], [.str "M"]] 0 (by decide)⟩

/-- C9 (counterexample): with one F row and 31 M rows the percentages are
3.125 and 96.875, both exact in binary64; they print as 3.13 and 96.88, which
sum to 100.01. -/
theorem calculerParite_ratio_sum_counterexample :
    (calculerParite ([.str "F"] :: List.replicate 31 [.str "M"]) 0).F = 1 ∧
    (calculerParite ([.str "F"] :: List.replicate 31 [.str "M"]) 0).M = 31 ∧
    (calculerParite ([.str "F"] :: List.replicate 31 [.str "M"]) 0).ratioF.render = "3.13" ∧
    (calculerParite ([.str "F"] :: List.replicate 31 [.str "M"]) 0).ratioM.render = "96.88" ∧
    (calculerParite ([.str "F"] :: List.replicate 31 [.str "M"]) 0).ratioF.hundredths +
      (calculerParite ([.str "F"] :: List.replicate 31 [.str "M"]) 0).ratioM.hundredths =
        10001 := by
  decide

/-- The sum can also fall short: 3 out of 4000 is 0.075 percent, which binary64
holds just below 0.075 and prints as 0.07, and 3997 out of 4000 prints as
99.92. -/
theorem ratio_sum_below_example :
    ratio 3 4000 = .fixed 7 ∧ ratio 3997 4000 = .fixed 9992 := by
  decide

/-- The fraction is below the next power of two after the exponent found by
`floorLog2`: together with `floorLog2_le`, the scaled fraction that
`roundToDouble` rounds lies between `2 ^ 52` and `2 ^ 53`. -/
theorem floorLog2_lt (a b : Nat) (ha : 0 < a) (hb : 0 < b) :
    (a : ℚ) / b < (2 : ℚ) ^ (floorLog2 a b + 1) := by
  have hbq : (0 : ℚ) < b := by exact_mod_cast hb
  have hla := (log2_bounds a (by omega)).2
  have hlb := (log2_bounds b (by omega)).1
  have hlaq : (a : ℚ) < 2 ^ (log2 a + 1) := by exact_mod_cast hla
  have hlbq : (2 : ℚ) ^ log2 b ≤ b := by exact_mod_cast hlb
  have hupper : (a : ℚ) / b < (2 : ℚ) ^ ((log2 a : ℤ) - (log2 b : ℤ) + 1) := by
    have e : (2 : ℚ) ^ ((log2 a : ℤ) - (log2 b : ℤ) + 1) =
        (2 : ℚ) ^ (log2 a + 1) / 2 ^ log2 b := by
      have : ((log2 a : ℤ) - (log2 b : ℤ) + 1) = ((log2 a + 1 : ℕ) : ℤ) - ((log2 b : ℕ) : ℤ) := by
        push_cast; ring
      rw [this, zpow_sub₀ (by norm_num : (2 : ℚ) ≠ 0), zpow_natCast, zpow_natCast]
    rw [e]
    have hp : (0 : ℚ) < 2 ^ log2 b := by positivity
    rw [div_lt_div_iff₀ hbq hp]
    have h1 : (a : ℚ) * 2 ^ log2 b ≤ a * b :=
      mul_le_mul_of_nonneg_left hlbq (by positivity)
    have h2 : (a : ℚ) * b < 2 ^ (log2 a + 1) * b :=
      mul_lt_mul_of_pos_right hlaq hbq
    linarith
  unfold floorLog2
  simp only
  by_cases hd : (0 : ℤ) ≤ (log2 a : ℤ) - (log2 b : ℤ)
  · rw [if_pos hd]
    by_cases hc : b * 2 ^ ((log2 a : ℤ) - (log2 b : ℤ)).toNat ≤ a
    · rw [if_pos hc]
      exact hupper
    · rw [if_neg hc]
      have hcq : (a : ℚ) < b * 2 ^ ((log2 a : ℤ) - (log2 b : ℤ)).toNat := by
        exact_mod_cast Nat.lt_of_not_le hc
      have e : (2 : ℚ) ^ ((log2 a : ℤ) - (log2 b : ℤ) - 1 + 1) =
          (2 : ℚ) ^ ((log2 a : ℤ) - (log2 b : ℤ)).toNat := by
        rw [sub_add_cancel]
        conv_lhs => rw [← Int.toNat_of_nonneg hd]
        rw [zpow_natCast]
      rw [e, div_lt_iff₀ hbq]
      linarith
  · rw [if_neg hd]
    by_cases hc : b ≤ a * 2 ^ (-((log2 a : ℤ) - (log2 b : ℤ))).toNat
    · rw [if_pos hc]
      exact hupper
    · rw [if_neg hc]
      have hcq : (a : ℚ) * 2 ^ (-((log2 a : ℤ) - (log2 b : ℤ))).toNat < b := by
        exact_mod_cast Nat.lt_of_not_le hc
      have hneg : (0 : ℤ) ≤ -((log2 a : ℤ) - (log2 b : ℤ)) := by omega
      have e : (2 : ℚ) ^ ((log2 a : ℤ) - (log2 b : ℤ) - 1 + 1) =
          ((2 : ℚ) ^ (-((log2 a : ℤ) - (log2 b : ℤ))).toNat)⁻¹ := by
        rw [sub_add_cancel, ← zpow_natCast, Int.toNat_of_nonneg hneg, zpow_neg, inv_inv]
      rw [e, div_lt_iff₀ hbq, lt_inv_mul_iff₀ (by positivity)]
      linarith

/-! ## Frequency tables: counting -/

/-- Reading a key after one increment. -/
theorem readCount_increment (t : FreqTable) (a k : String) :
    readCount (increment t a) k =
      if a = k then some ((readCount t k).getD 0 + 1) else readCount t k := by
  induction t with
  | nil =>
    by_cases h : a = k
    · simp [increment, readCount, h]
    · simp [increment, readCount, h]
  | cons e t ih =>
    obtain ⟨k', v⟩ := e
    unfold increment
    by_cases h1 : k' = a
    · rw [if_pos h1]
      by_cases h2 : a = k
      · have h3 : k' = k := h1.trans h2
        simp [readCount, h2, h3]
      · have h3 : ¬ k' = k := fun e => h2 (h1.symm.trans e)
        simp [readCount, h2, h3]
    · rw [if_neg h1]
      by_cases h3 : k' = k
      · have h2 : ¬ a = k := fun e => h1 (h3.trans e.symm)
        simp [readCount, h2, h3]
      · have e1 : readCount ((k', v) :: increment t a) k = readCount (increment t a) k := by
          simp [readCount, h3]
        have e2 : readCount ((k', v) :: t) k = readCount t k := by
          simp [readCount, h3]
        rw [e1, e2, ih]

/-- Adding counts in two steps. -/
theorem addCount_addCount (o : Option Nat) (a b : Nat) :
    addCount (addCount o a) b = addCount o (a + b) := by
  cases o with
  | some v => simp [addCount, Nat.add_assoc]
  | none =>
    by_cases ha : a = 0
    · simp [addCount, ha]
    · by_cases hb : a + b = 0
      · omega
      · simp [addCount, ha, hb]

/-- Adding no increment. -/
theorem addCount_zero (o : Option Nat) : addCount o 0 = o := by
  cases o <;> simp [addCount]

/-- Reading a key after a run of increments. -/
theorem readCount_foldl_increment (ks : List String) (t : FreqTable) (k : String) :
    readCount (ks.foldl increment t) k = addCount (readCount t k) (ks.count k) := by
  induction ks generalizing t with
  | nil => simp [addCount_zero]
  | cons a ks ih =>
    rw [List.foldl_cons, ih, readCount_increment]
    by_cases h : a = k
    · rw [if_pos h, h, List.count_cons_self]
      cases readCount t k with
      | some v => simp [addCount]; omega
      | none => simp [addCount]; omega
    · rw [if_neg h, List.count_cons_of_ne (fun e => h e.symm)]

/-- Reading a key after a loop over the rows in which each row increments the
keys `keys row`. -/
theorem readCount_foldl_rows (keys : Row → List String) (rows : List Row) (t : FreqTable)
    (k : String) :
    readCount (rows.foldl (fun t row => (keys row).foldl increment t) t) k =
      addCount (readCount t k) ((rows.map (fun row => (keys row).count k)).sum) := by
  induction rows generalizing t with
  | nil => simp [addCount_zero]
  | cons r rows ih =>
    rw [List.foldl_cons, ih, readCount_foldl_increment, addCount_addCount]
    simp

/-- A sum of zeros and ones over the rows is the number of rows that give one. -/
theorem sum_map_ite_eq_countP (rows : List Row) (p : Row → Prop) [DecidablePred p] :
    (rows.map (fun row => if p row then 1 else 0)).sum = rows.countP (fun row => decide (p row)) := by
  induction rows with
  | nil => rfl
  | cons r rows ih =>
    by_cases h : p r
    · simp [h, ih, List.countP_cons, Nat.add_comm]
    · simp [h, ih, List.countP_cons]

/-- A loop in which each row increments at most one key: the count of a key is
the number of rows that increment it. -/
theorem readCount_foldl_single (c : Row → Prop) [DecidablePred c] (key : Row → String)
    (rows : List Row) (k : String) :
    readCount (rows.foldl (fun t row => if c row then increment t (key row) else t) []) k =
      addCount none (rows.countP (fun row => decide (c row ∧ key row = k))) := by
  have hstep : (fun (t : FreqTable) (row : Row) => if c row then increment t (key row) else t) =
      fun t row => (if c row then [key row] else []).foldl increment t := by
    funext t row
    by_cases h : c row <;> simp [h]
  rw [hstep, readCount_foldl_rows, ← sum_map_ite_eq_countP]
  have hcount : (fun row => (if c row then [key row] else []).count k) =
      fun row => if c row ∧ key row = k then 1 else 0 := by
    funext row
    by_cases h : c row
    · by_cases h2 : key row = k
      · simp [h, h2]
      · have hne : k ≠ key row := fun e => h2 e.symm
        simp [h, h2, List.count_cons_of_ne hne]
    · simp [h]
  rw [hcount]
  rfl

/-- What `addCount none n` says about a key: its count (0 when absent) is `n`, and
it is a key exactly when `n` is at least 1. -/
theorem addCount_none_spec (o : Option Nat) (n : Nat) (h : o = addCount none n) :
    o.getD 0 = n ∧ (o.isSome = true ↔ 1 ≤ n) := by
  subst h
  by_cases hn : n = 0
  · simp [addCount, hn]
  · simp [addCount, hn]
    omega

/-! ## Language-only and option-only counts -/

/-- A concrete run of `calculerLV2`: the row with an option is left out. -/
theorem calculerLV2_example :
    calculerLV2 [[.str "esp", .empty], [.str "ESP ", .str " "], [.str "ita", .str "latin"],
      [.str "all"]] 0 1 = [("ESP", 2), ("ALL", 1)] := by
  decide

/-- C12: for every row set and every pair of column indices `a`, `b`,
`calculerOptions(rows, a, b)` equals `calculerLV2(rows, a, b)`: both count the
rows by the normalised value of column `a` over the rows where column `b` is
empty, although `calculerLV2` trims the excluded field without upper-casing
it. -/
theorem calculerOptions_eq_calculerLV2 (rows : List Row) (a b : Int) :
    calculerOptions rows a b = calculerLV2 rows a b := by
  unfold calculerOptions calculerLV2
  have hstep : (fun (optCounts : FreqTable) (row : Row) =>
        let opt := normCell row a
        let lv2 := normCell row b
        if opt ≠ "" ∧ lv2 = "" then increment optCounts opt else optCounts) =
      fun lv2Counts row =>
        let lv2 := normCell row a
        let opt := trimmedCell row b
        if lv2 ≠ "" ∧ opt = "" then increment lv2Counts lv2 else lv2Counts := by
    funext t row
    have h : normCell row b = "" ↔ trimmedCell row b = "" := toUpperCase_eq_empty_iff _
    simp only [h]
  rw [hstep]

/-! ## Splitting the options -/

/-- A delimiter is not white space. -/
theorem isWhiteSpace_of_isDelimiter (c : Char) (h : isDelimiter c = true) :
    isWhiteSpace c = false := by
  unfold isDelimiter at h
  simp only [Bool.or_eq_true, decide_eq_true_eq] at h
  rcases h with ((h | h) | h) | h <;> (rw [h]; rfl)

/-- Upper-casing does not change whether a character is a delimiter. -/
theorem isDelimiter_upperChar (c : Char) : isDelimiter (upperChar c) = isDelimiter c := by
  by_cases h : 97 ≤ c.toNat ∧ c.toNat ≤ 122
  · have e := upperChar_toNat_of_lower c h.1 h.2
    have key : ∀ x : Char, x.toNat ≠ 43 → x.toNat ≠ 44 → x.toNat ≠ 59 → x.toNat ≠ 47 →
        isDelimiter x = false := by
      intro x h1 h2 h3 h4
      unfold isDelimiter
      simp only [Bool.or_eq_false_iff, decide_eq_false_iff_not]
      refine ⟨⟨⟨?_, ?_⟩, ?_⟩, ?_⟩ <;> (intro hx; rw [hx] at h1 h2 h3 h4; revert h1 h2 h3 h4; decide)
    rw [key c (by omega) (by omega) (by omega) (by omega),
      key (upperChar c) (by omega) (by omega) (by omega) (by omega)]
  · unfold upperChar
    rw [if_neg h]

/-- Skipping `k` characters of a match is dropping them. -/
theorem splitLoop_skip (k : Nat) (piece s : List Char) :
    splitLoop k piece s = splitLoop 0 piece (s.drop k) := by
  induction k generalizing s with
  | zero => rfl
  | succ k ih =>
    cases s with
    | nil => simp [splitLoop]
    | cons c rest => simp only [splitLoop, List.drop_succ_cons]; exact ih rest

/-- A run without delimiter is collected into the current piece. -/
theorem splitAtDelimiters_append (w piece s : List Char)
    (hw : ∀ c ∈ w, isDelimiter c = false) :
    splitAtDelimiters piece (w ++ s) = splitAtDelimiters (piece ++ w) s := by
  induction w generalizing piece with
  | nil => simp
  | cons a w ih =>
    have ha : isDelimiter a = false := hw a (List.mem_cons_self _ _)
    have e : splitAtDelimiters piece (a :: w ++ s) = splitAtDelimiters (piece ++ [a]) (w ++ s) := by
      show splitAtDelimiters piece (a :: (w ++ s)) = _
      rw [splitAtDelimiters, if_neg (by simp [ha])]
    rw [e, ih (piece ++ [a]) (fun c hc => hw c (List.mem_cons_of_mem _ hc))]
    simp

/-- White space at the end of a piece does not change its trimmed text. -/
theorem trim_append_space (p w : List Char) (hw : ∀ c ∈ w, isWhiteSpace c = true) :
    trim ⟨p ++ w⟩ = trim ⟨p⟩ := by
  apply String.ext
  have := trimChars_pad [] p w (by simp) hw
  simpa [trim_data] using this

/-- White space at the start of a piece does not change its trimmed text. -/
theorem trim_space_append (w p : List Char) (hw : ∀ c ∈ w, isWhiteSpace c = true) :
    trim ⟨w ++ p⟩ = trim ⟨p⟩ := by
  apply String.ext
  have := trimChars_pad w p [] hw (by simp)
  simpa [trim_data] using this

/-- White space at the start of the current piece does not change the tokens. -/
theorem tokens_splitAtDelimiters_space (w p s : List Char)
    (hw : ∀ c ∈ w, isWhiteSpace c = true) :
    ((splitAtDelimiters (w ++ p) s).map trim).filter (fun o => o ≠ "") =
      ((splitAtDelimiters p s).map trim).filter (fun o => o ≠ "") := by
  induction s generalizing p with
  | nil => simp [splitAtDelimiters, trim_space_append w p hw]
  | cons c rest ih =>
    by_cases hc : isDelimiter c = true
    · simp [splitAtDelimiters, hc, trim_space_append w p hw]
    · simp only [splitAtDelimiters, hc, if_false]
      rw [List.append_assoc]
      exact ih (p ++ [c])


/-- At a delimiter the first alternative of the separator matches one character. -/
theorem matchSeparator_delimiter (c : Char) (rest : List Char) (h : isDelimiter c = true) :
    matchSeparator (c :: rest) = some 1 := by
  unfold isDelimiter at h
  simp only [Bool.or_eq_true, decide_eq_true_eq] at h
  have h' : c = '+' ∨ c = ',' ∨ c = ';' ∨ c = '/' := by
    rcases h with ((h | h) | h) | h
    · exact Or.inl h
    · exact Or.inr (Or.inl h)
    · exact Or.inr (Or.inr (Or.inl h))
    · exact Or.inr (Or.inr (Or.inr h))
  simp only [matchSeparator, h', if_true]

/-- Away from a delimiter the separator matches only a run of white space, a
`+` and another run of white space. -/
theorem matchSeparator_space (c : Char) (rest : List Char) (h : isDelimiter c = false)
    (n : Nat) (hn : matchSeparator (c :: rest) = some n) :
    ∃ ws1 ws2 rest' : List Char,
      c :: rest = ws1 ++ '+' :: (ws2 ++ rest') ∧
      (∀ x ∈ ws1, isWhiteSpace x = true) ∧ (∀ x ∈ ws2, isWhiteSpace x = true) ∧
      1 ≤ ws1.length ∧ n = ws1.length + 1 + ws2.length := by
  unfold isDelimiter at h
  simp only [Bool.or_eq_false_iff, decide_eq_false_iff_not] at h
  have h' : ¬ (c = '+' ∨ c = ',' ∨ c = ';' ∨ c = '/') := by
    rintro (e | e | e | e)
    · exact h.1.1.1 e
    · exact h.1.1.2 e
    · exact h.1.2 e
    · exact h.2 e
  simp only [matchSeparator, h', if_false] at hn
  have hsplit := List.takeWhile_append_dropWhile isWhiteSpace (c :: rest)
  rcases hd : List.dropWhile isWhiteSpace (c :: rest) with _ | ⟨d, after⟩
  · rw [hd] at hn
    simp at hn
  · rw [hd] at hn hsplit
    simp only at hn
    by_cases hcond : d = '+' ∧ 1 ≤ (List.takeWhile isWhiteSpace (c :: rest)).length ∧
        1 ≤ (List.takeWhile isWhiteSpace after).length
    · rw [if_pos hcond] at hn
      refine ⟨List.takeWhile isWhiteSpace (c :: rest), List.takeWhile isWhiteSpace after,
        List.dropWhile isWhiteSpace after, ?_, ?_, ?_, hcond.2.1, ?_⟩
      · rw [List.takeWhile_append_dropWhile, ← hcond.1]
        exact hsplit.symm
      · intro x hx
        exact List.mem_takeWhile_imp hx
      · intro x hx
        exact List.mem_takeWhile_imp hx
      · exact (Option.some.inj hn).symm
    · rw [if_neg hcond] at hn
      simp at hn

/-- The tokens that the separator of the code yields are the tokens of
splitting at the four delimiter characters. -/
theorem tokens_splitLoop (n : Nat) : ∀ (s piece : List Char), s.length = n →
    ((splitLoop 0 piece s).map trim).filter (fun o => o ≠ "") =
      ((splitAtDelimiters piece s).map trim).filter (fun o => o ≠ "") := by
  induction n using Nat.strong_induction_on with
  | _ n ih =>
    intro s piece hlen
    cases s with
    | nil => rfl
    | cons c rest =>
      have hrest : rest.length < n := by
        rw [← hlen]; simp
      by_cases hc : isDelimiter c = true
      · have e1 : splitLoop 0 piece (c :: rest) = ⟨piece⟩ :: splitLoop 0 [] rest := by
          simp only [splitLoop, matchSeparator_delimiter c rest hc]
        have e2 : splitAtDelimiters piece (c :: rest) = ⟨piece⟩ :: splitAtDelimiters [] rest := by
          simp only [splitAtDelimiters, hc, if_true]
        rw [e1, e2, List.map_cons, List.map_cons, List.filter_cons, List.filter_cons,
          ih rest.length hrest rest [] rfl]
      · have hc' : isDelimiter c = false := by simpa using hc
        have e2 : splitAtDelimiters piece (c :: rest) = splitAtDelimiters (piece ++ [c]) rest := by
          simp only [splitAtDelimiters, hc', Bool.false_eq_true, if_false]
        rcases hm : matchSeparator (c :: rest) with _ | m
        · have e1 : splitLoop 0 piece (c :: rest) = splitLoop 0 (piece ++ [c]) rest := by
            simp only [splitLoop, hm]
          rw [e1, e2]
          exact ih rest.length hrest rest (piece ++ [c]) rfl
        · obtain ⟨ws1, ws2, rest', hs, hw1, hw2, h1, hmm⟩ :=
            matchSeparator_space c rest hc' m hm
          have e1 : splitLoop 0 piece (c :: rest) = ⟨piece⟩ :: splitLoop 0 [] rest' := by
            have hdrop : rest.drop (m - 1) = rest' := by
              have : rest.drop (m - 1) = (c :: rest).drop m := by
                have hm1 : m = (m - 1) + 1 := by omega
                conv_rhs => rw [hm1, List.drop_succ_cons]
              rw [this, hs, hmm]
              have : ws1 ++ '+' :: (ws2 ++ rest') = (ws1 ++ '+' :: ws2) ++ rest' := by simp
              rw [this]
              have hl : (ws1 ++ '+' :: ws2).length = ws1.length + 1 + ws2.length := by
                simp; omega
              rw [← hl, List.drop_left]
            simp only [splitLoop, hm]
            rw [splitLoop_skip, hdrop]
          have hnd1 : ∀ x ∈ ws1, isDelimiter x = false := by
            intro x hx
            by_contra hxd
            have := isWhiteSpace_of_isDelimiter x (by simpa using hxd)
            rw [hw1 x hx] at this
            exact absurd this (by simp)
          have hnd2 : ∀ x ∈ ws2, isDelimiter x = false := by
            intro x hx
            by_contra hxd
            have := isWhiteSpace_of_isDelimiter x (by simpa using hxd)
            rw [hw2 x hx] at this
            exact absurd this (by simp)
          have e3 : splitAtDelimiters piece (c :: rest) =
              ⟨piece ++ ws1⟩ :: splitAtDelimiters ([] ++ ws2) rest' := by
            rw [hs, splitAtDelimiters_append ws1 piece _ hnd1]
            have : splitAtDelimiters (piece ++ ws1) ('+' :: (ws2 ++ rest')) =
                ⟨piece ++ ws1⟩ :: splitAtDelimiters [] (ws2 ++ rest') := by
              rw [splitAtDelimiters, if_pos (by decide)]
            rw [this, splitAtDelimiters_append ws2 [] rest' hnd2]
          have hlen' : rest'.length < n := by
            have : (c :: rest).length = (ws1 ++ '+' :: (ws2 ++ rest')).length := by rw [hs]
            simp at this
            omega
          have e4 := tokens_splitAtDelimiters_space ws2 [] rest' hw2
          rw [List.append_nil] at e4
          rw [e1, e3, List.map_cons, List.map_cons, List.filter_cons, List.filter_cons,
            trim_append_space piece ws1 hw1, List.nil_append, e4,
            ih rest'.length hlen' rest' [] rfl]

/-- The helper `splitOptions` returns the non-empty trimmed tokens of the
upper-cased option text split at `+`, `,`, `;` and `/`. -/
theorem splitOptions_eq_delimiterTokens (v : Option Cell) :
    splitOptions v = delimiterTokens (toUpperCase (stringOrEmpty v)) := by
  unfold splitOptions delimiterTokens splitSeparators
  exact tokens_splitLoop _ _ [] rfl


/-- Upper-casing commutes with `trim`. -/
theorem trim_toUpperCase (s : String) : trim (toUpperCase s) = toUpperCase (trim s) := by
  apply String.ext
  show (((s.data.map upperChar).dropWhile isWhiteSpace).rdropWhile isWhiteSpace) =
    ((s.data.dropWhile isWhiteSpace).rdropWhile isWhiteSpace).map upperChar
  exact (map_upperChar_trimChars s.data).symm

/-- A text without delimiter is one token, or none when it is blank. -/
theorem delimiterTokens_of_no_delimiter (s : String)
    (h : ∀ c ∈ s.data, isDelimiter c = false) :
    delimiterTokens s = if trim s = "" then [] else [trim s] := by
  unfold delimiterTokens
  have e : splitAtDelimiters [] s.data = [s] := by
    have := splitAtDelimiters_append s.data [] [] h
    rw [List.append_nil, List.nil_append] at this
    rw [this]
    rfl
  rw [e]
  by_cases ht : trim s = ""
  · simp [ht]
  · simp [ht]

/-- A blank text has no token. -/
theorem delimiterTokens_of_blank (s : String) (h : Blank s) : delimiterTokens s = [] := by
  have hnd : ∀ c ∈ s.data, isDelimiter c = false := by
    intro c hc
    by_contra hcd
    have := isWhiteSpace_of_isDelimiter c (by simpa using hcd)
    rw [h c hc] at this
    exact absurd this (by simp)
  rw [delimiterTokens_of_no_delimiter s hnd, if_pos ((trim_eq_empty_iff s).2 h)]

/-- A piece with a character that is not white space, or a text with a
character that is neither white space nor a delimiter, gives a token. -/
theorem tokens_splitAtDelimiters_ne_nil (s piece : List Char)
    (h : (∃ c ∈ piece, isWhiteSpace c = false) ∨
      ∃ c ∈ s, isWhiteSpace c = false ∧ isDelimiter c = false) :
    ((splitAtDelimiters piece s).map trim).filter (fun o => o ≠ "") ≠ [] := by
  have hpiece : ∀ p : List Char, (∃ c ∈ p, isWhiteSpace c = false) → trim ⟨p⟩ ≠ "" := by
    intro p ⟨c, hc, hw⟩ ht
    have := (trim_eq_empty_iff ⟨p⟩).1 ht c hc
    rw [hw] at this
    exact absurd this (by simp)
  induction s generalizing piece with
  | nil =>
    rcases h with h | ⟨c, hc, _⟩
    · simp [splitAtDelimiters, hpiece piece h]
    · simp at hc
  | cons x rest ih =>
    by_cases hx : isDelimiter x = true
    · have e : splitAtDelimiters piece (x :: rest) = ⟨piece⟩ :: splitAtDelimiters [] rest := by
        simp only [splitAtDelimiters, hx, if_true]
      rw [e, List.map_cons, List.filter_cons]
      rcases h with h | ⟨c, hc, hw, hd⟩
      · simp [hpiece piece h]
      · have hcr : c ∈ rest := by
          rcases List.mem_cons.1 hc with e' | e'
          · rw [e', hx] at hd
            exact absurd hd (by simp)
          · exact e'
        have := ih [] (Or.inr ⟨c, hcr, hw, hd⟩)
        split
        · simp
        · exact this
    · have hx' : isDelimiter x = false := by simpa using hx
      have e : splitAtDelimiters piece (x :: rest) = splitAtDelimiters (piece ++ [x]) rest := by
        simp only [splitAtDelimiters, hx', Bool.false_eq_true, if_false]
      rw [e]
      apply ih
      rcases h with ⟨c, hc, hw⟩ | ⟨c, hc, hw, hd⟩
      · exact Or.inl ⟨c, List.mem_append_left _ hc, hw⟩
      · rcases List.mem_cons.1 hc with e' | e'
        · exact Or.inl ⟨x, by simp, e' ▸ hw⟩
        · exact Or.inr ⟨c, e', hw, hd⟩

/-- An option text with a character that is neither white space nor a delimiter
gives `splitOptions` at least one token. -/
theorem splitOptions_ne_nil (v : Option Cell)
    (h : ∃ c ∈ (stringOrEmpty v).data, isWhiteSpace c = false ∧ isDelimiter c = false) :
    splitOptions v ≠ [] := by
  rw [splitOptions_eq_delimiterTokens]
  unfold delimiterTokens
  apply tokens_splitAtDelimiters_ne_nil
  right
  obtain ⟨c, hc, hw, hd⟩ := h
  refine ⟨upperChar c, ?_, ?_, ?_⟩
  · show upperChar c ∈ (stringOrEmpty v).data.map upperChar
    exact List.mem_map_of_mem _ hc
  · rw [isWhiteSpace_upperChar]; exact hw
  · rw [isDelimiter_upperChar]; exact hd

/-- A blank option text gives `splitOptions` no token. -/
theorem splitOptions_of_blank (v : Option Cell) (h : trim (stringOrEmpty v) = "") :
    splitOptions v = [] := by
  rw [splitOptions_eq_delimiterTokens]
  apply delimiterTokens_of_blank
  have hb := (trim_eq_empty_iff _).1 h
  intro c hc
  obtain ⟨a, ha, rfl⟩ := List.mem_map.1 (show c ∈ (stringOrEmpty v).data.map upperChar from hc)
  rw [isWhiteSpace_upperChar]
  exact hb a ha


/-! ## Combined profiles -/

/-- The loop body of `calculerCombos` increments the keys `comboKeys` of the row. -/
theorem calculerCombos_eq (rows : List Row) (lv2Idx optIdx : Int) :
    calculerCombos rows lv2Idx optIdx =
      rows.foldl (fun t row => (comboKeys lv2Idx optIdx row).foldl increment t) [] := by
  unfold calculerCombos
  congr 1
  funext t row
  unfold comboKeys
  by_cases h1 : normCell row lv2Idx = ""
  · simp [h1]
  · by_cases h2 : (splitOptions (row.at optIdx)).length = 0
    · have h3 : splitOptions (row.at optIdx) = [] := List.length_eq_zero.1 h2
      simp [h1, h3]
    · simp only [ne_eq, h1, not_false_eq_true, h2, and_self, if_true, List.foldl_map]

/-- The counts of a table grow by one with each increment. -/
theorem sum_increment (t : FreqTable) (k : String) :
    ((increment t k).map Prod.snd).sum = (t.map Prod.snd).sum + 1 := by
  induction t with
  | nil => simp [increment]
  | cons e t ih =>
    obtain ⟨k', v⟩ := e
    unfold increment
    by_cases h : k' = k
    · rw [if_pos h]
      simp
      omega
    · rw [if_neg h]
      simp [ih]
      omega

/-- The counts of a table after a run of increments. -/
theorem sum_foldl_increment (ks : List String) (t : FreqTable) :
    ((ks.foldl increment t).map Prod.snd).sum = (t.map Prod.snd).sum + ks.length := by
  induction ks generalizing t with
  | nil => simp
  | cons a ks ih =>
    rw [List.foldl_cons, ih, sum_increment]
    simp
    omega

/-- The counts of a table after a loop over the rows. -/
theorem sum_foldl_rows (keys : Row → List String) (rows : List Row) (t : FreqTable) :
    ((rows.foldl (fun t row => (keys row).foldl increment t) t).map Prod.snd).sum =
      (t.map Prod.snd).sum + (rows.map (fun row => (keys row).length)).sum := by
  induction rows generalizing t with
  | nil => simp
  | cons r rows ih =>
    rw [List.foldl_cons, ih, sum_foldl_increment]
    simp
    omega

/-- C13: for every row and column indices, a row that contributes an increment
to `calculerCombos` contributes nothing to `calculerLV2` and nothing to
`calculerOptions`; and of the three tables `calculerLV2([r])`,
`calculerOptions([r])`, `calculerCombos([r])` at most one is non-empty. -/
theorem aggregators_mutually_exclusive (row : Row) (lv2Idx optIdx : Int) :
    (calculerCombos [row] lv2Idx optIdx ≠ [] →
      calculerLV2 [row] lv2Idx optIdx = [] ∧ calculerOptions [row] optIdx lv2Idx = []) ∧
    (calculerLV2 [row] lv2Idx optIdx ≠ [] →
      calculerOptions [row] optIdx lv2Idx = [] ∧ calculerCombos [row] lv2Idx optIdx = []) ∧
    (calculerOptions [row] optIdx lv2Idx ≠ [] →
      calculerLV2 [row] lv2Idx optIdx = [] ∧ calculerCombos [row] lv2Idx optIdx = []) := by
  have hLV2 : calculerLV2 [row] lv2Idx optIdx =
      if normCell row lv2Idx ≠ "" ∧ trimmedCell row optIdx = "" then
        increment [] (normCell row lv2Idx) else [] := rfl
  have hOpt : calculerOptions [row] optIdx lv2Idx =
      if normCell row optIdx ≠ "" ∧ normCell row lv2Idx = "" then
        increment [] (normCell row optIdx) else [] := rfl
  have hCombo : calculerCombos [row] lv2Idx optIdx =
      if normCell row lv2Idx ≠ "" ∧ (splitOptions (row.at optIdx)).length ≠ 0 then
        (splitOptions (row.at optIdx)).foldl
          (fun combos opt => increment combos (normCell row lv2Idx ++ " + " ++ opt)) []
      else [] := rfl
  have hblank : trimmedCell row optIdx = "" → splitOptions (row.at optIdx) = [] :=
    splitOptions_of_blank (row.at optIdx)
  refine ⟨?_, ?_, ?_⟩
  · intro h
    rw [hCombo] at h
    by_cases hc : normCell row lv2Idx ≠ "" ∧ (splitOptions (row.at optIdx)).length ≠ 0
    · have hno : ¬ trimmedCell row optIdx = "" := by
        intro e
        exact hc.2 (by rw [hblank e]; rfl)
      rw [hLV2, hOpt, if_neg (fun hh => hno hh.2), if_neg (fun hh => hc.1 hh.2)]
      exact ⟨rfl, rfl⟩
    · rw [if_neg hc] at h
      exact absurd rfl h
  · intro h
    rw [hLV2] at h
    by_cases hc : normCell row lv2Idx ≠ "" ∧ trimmedCell row optIdx = ""
    · rw [hOpt, hCombo, if_neg (fun hh => hc.1 hh.2),
        if_neg (fun hh => hh.2 (by rw [hblank hc.2]; rfl))]
      exact ⟨rfl, rfl⟩
    · rw [if_neg hc] at h
      exact absurd rfl h
  · intro h
    rw [hOpt] at h
    by_cases hc : normCell row optIdx ≠ "" ∧ normCell row lv2Idx = ""
    · rw [hLV2, hCombo, if_neg (fun hh => hh.1 hc.2), if_neg (fun hh => hh.1 hc.2)]
      exact ⟨rfl, rfl⟩
    · rw [if_neg hc] at h
      exact absurd rfl h

/-- The theorem of C13 at a row with the language ESP and the options
LATIN/CHAV: it is counted by `calculerCombos` only. -/
theorem aggregators_mutually_exclusive_witness :
    calculerCombos [[.str "ESP", .str "LATIN/CHAV"]] 0 1 ≠ [] ∧
    calculerLV2 [[.str "ESP", .str "LATIN/CHAV"]] 0 1 = [] ∧
    calculerOptions [[.str "ESP", .str "LATIN/CHAV"]] 1 0 = [] :=
  ⟨by decide,
    (aggregators_mutually_exclusive [.str "ESP", .str "LATIN/CHAV"] 0 1).1 (by decide)⟩

/-- C14 (amended): every row whose normalised second language is non-empty and
whose option text holds at least one character that is neither a delimiter
(`+`, `,`, `;`, `/`) nor white space contributes to the combined-profile
table: `calculerCombos([r], lv2Idx, optIdx)` has a key with a positive count. -/
theorem calculerCombos_contributes (row : Row) (lv2Idx optIdx : Int)
    (hlv2 : normCell row lv2Idx ≠ "")
    (hopt : ∃ c ∈ (optionText row optIdx).data, isWhiteSpace c = false ∧ isDelimiter c = false) :
    ∃ k v, (k, v) ∈ calculerCombos [row] lv2Idx optIdx ∧ 0 < v := by
  have hne : splitOptions (row.at optIdx) ≠ [] := splitOptions_ne_nil _ hopt
  obtain ⟨opt, rest, hsplit⟩ := List.exists_cons_of_ne_nil hne
  have hkeys : comboKeys lv2Idx optIdx row =
      (normCell row lv2Idx ++ " + " ++ opt) ::
        rest.map (fun o => normCell row lv2Idx ++ " + " ++ o) := by
    unfold comboKeys
    rw [if_pos hlv2, hsplit, List.map_cons]
  have hread := readCount_foldl_increment (comboKeys lv2Idx optIdx row) []
    (normCell row lv2Idx ++ " + " ++ opt)
  have htable : calculerCombos [row] lv2Idx optIdx =
      (comboKeys lv2Idx optIdx row).foldl increment [] := by
    rw [calculerCombos_eq]
    rfl
  rw [← htable, hkeys, List.count_cons_self] at hread
  have hsome : readCount (calculerCombos [row] lv2Idx optIdx)
      (normCell row lv2Idx ++ " + " ++ opt) =
      some ((rest.map (fun o => normCell row lv2Idx ++ " + " ++ o)).count
        (normCell row lv2Idx ++ " + " ++ opt) + 1) := by
    rw [hread]
    simp [addCount, readCount]
  exact ⟨_, _, count_eq_some_mem _ _ _ hsome, Nat.succ_pos _⟩

/-- The theorem of C14 (amended) at a row with the language ESP and the option
` latin +`. -/
theorem calculerCombos_contributes_witness :
    normCell [.str "esp", .str " latin +"] 0 ≠ "" ∧
    ∃ k v, (k, v) ∈ calculerCombos [[.str "esp", .str " latin +"]] 0 1 ∧ 0 < v :=
  ⟨by decide,
    calculerCombos_contributes [.str "esp", .str " latin +"] 0 1 (by decide)
      ⟨'l', by decide, by decide, by decide⟩⟩

/-- C14 (counterexample): the row has the second language ESP and the option
`/`, both non-empty after normalisation, and `calculerCombos` counts nothing
for it. -/
theorem calculerCombos_contributes_counterexample :
    normCell [.str "ESP", .str "/"] 0 ≠ "" ∧ normCell [.str "ESP", .str "/"] 1 ≠ "" ∧
    calculerCombos [[.str "ESP", .str "/"]] 0 1 = [] := by
  decide

/-- The example of C15: the language ESP with the options LATIN/CHAV gives one
increment to each of two keys. -/
theorem calculerCombos_example :
    calculerCombos [[.str "ESP", .str "LATIN/CHAV"]] 0 1 =
      [("ESP + LATIN", 1), ("ESP + CHAV", 1)] ∧
    delimiterTokens (toUpperCase (optionText [.str "ESP", .str "LATIN/CHAV"] 1)) =
      ["LATIN", "CHAV"] := by
  decide

/-- The second alternative of the separator, a `+` between white space, gives
the same tokens as the single characters. -/
theorem splitOptions_example :
    splitOptions (some (.str "latin + chav  +grec ;; 3")) = ["LATIN", "CHAV", "GREC", "3"] := by
  decide

/-! ## Unified global count -/

/-- The examples of C16: (ITA, empty) and (ITA, ITA) both give ITA once, and an
option of two tokens counts under its whole string. -/
theorem calculerComptagesGlobaux_examples :
    calculerComptagesGlobaux [[.str "ITA", .str ""]] 0 1 = [("ITA", 1)] ∧
    calculerComptagesGlobaux [[.str "ITA", .str "ITA"]] 0 1 = [("ITA", 1)] ∧
    calculerComptagesGlobaux [[.str "ESP", .str "LATIN/CHAV"]] 0 1 =
      [("ESP", 1), ("LATIN/CHAV", 1)] := by
  decide

/-! ## Association and dissociation codes -/

/-- The keys of a table after an increment are the set of keys after `add`. -/
theorem keys_increment (t : FreqTable) (k : String) :
    (increment t k).map Prod.fst = setAdd (t.map Prod.fst) k := by
  induction t with
  | nil => simp [increment, setAdd]
  | cons e t ih =>
    obtain ⟨k', v⟩ := e
    unfold increment
    by_cases h : k' = k
    · rw [if_pos h]
      simp [setAdd, h]
    · rw [if_neg h, List.map_cons, ih]
      have hne : ¬ k = k' := fun e => h e.symm
      unfold setAdd
      by_cases hm : k ∈ t.map Prod.fst
      · simp [hm]
      · simp [hm, hne]

/-- Adding to a set keeps its elements distinct. -/
theorem nodup_setAdd (s : List String) (x : String) (h : s.Nodup) : (setAdd s x).Nodup := by
  unfold setAdd
  by_cases hm : x ∈ s
  · rw [if_pos hm]; exact h
  · rw [if_neg hm]
    exact List.Nodup.append h (List.nodup_singleton x) (by simpa using hm)

/-- An increment keeps every count positive. -/
theorem pos_increment (t : FreqTable) (k : String) (h : ∀ e ∈ t, 1 ≤ e.2) :
    ∀ e ∈ increment t k, 1 ≤ e.2 := by
  induction t with
  | nil => simp [increment]
  | cons a t ih =>
    obtain ⟨k', v⟩ := a
    unfold increment
    by_cases hk : k' = k
    · rw [if_pos hk]
      intro e he
      rcases List.mem_cons.1 he with e1 | e1
      · rw [e1]; simp
      · exact h e (List.mem_cons_of_mem _ e1)
    · rw [if_neg hk]
      intro e he
      rcases List.mem_cons.1 he with e1 | e1
      · rw [e1]; exact h _ (List.mem_cons_self _ _)
      · exact ih (fun e he => h e (List.mem_cons_of_mem _ he)) e e1

/-- The loop of `calculerCodesAsso` and of `calculerCodesDisso`: the set holds
the keys of the details, the keys are distinct, the counts are positive, the
details count the rows by their code, and the total is the number of rows with
a code. -/
theorem codes_loop_spec (rows : List Row) (idx : Int) (st : List String × FreqTable × Nat)
    (hset : st.1 = st.2.1.map Prod.fst) (hnd : st.1.Nodup) (hpos : ∀ e ∈ st.2.1, 1 ≤ e.2) :
    (rows.foldl
      (fun st row =>
        let code := normCell row idx
        if code ≠ "" then (setAdd st.1 code, increment st.2.1 code, st.2.2 + 1) else st)
      st).1 =
      (rows.foldl
        (fun st row =>
          let code := normCell row idx
          if code ≠ "" then (setAdd st.1 code, increment st.2.1 code, st.2.2 + 1) else st)
        st).2.1.map Prod.fst ∧
    (rows.foldl
      (fun st row =>
        let code := normCell row idx
        if code ≠ "" then (setAdd st.1 code, increment st.2.1 code, st.2.2 + 1) else st)
      st).1.Nodup ∧
    (∀ e ∈ (rows.foldl
      (fun st row =>
        let code := normCell row idx
        if code ≠ "" then (setAdd st.1 code, increment st.2.1 code, st.2.2 + 1) else st)
      st).2.1, 1 ≤ e.2) ∧
    (rows.foldl
      (fun st row =>
        let code := normCell row idx
        if code ≠ "" then (setAdd st.1 code, increment st.2.1 code, st.2.2 + 1) else st)
      st).2.1 =
      rows.foldl
        (fun t row => if normCell row idx ≠ "" then increment t (normCell row idx) else t)
        st.2.1 ∧
    (rows.foldl
      (fun st row =>
        let code := normCell row idx
        if code ≠ "" then (setAdd st.1 code, increment st.2.1 code, st.2.2 + 1) else st)
      st).2.2 = st.2.2 + rows.countP (fun row => decide (normCell row idx ≠ "")) := by
  induction rows generalizing st with
  | nil => exact ⟨hset, hnd, hpos, rfl, by simp⟩
  | cons row rows ih =>
    simp only [List.foldl_cons]
    by_cases hc : normCell row idx = ""
    · have := ih st hset hnd hpos
      simp only [hc, ne_eq, not_true_eq_false, if_false] at this ⊢
      simpa [List.countP_cons, hc] using this
    · have hstep := ih (setAdd st.1 (normCell row idx), increment st.2.1 (normCell row idx),
          st.2.2 + 1)
        (by rw [keys_increment, hset])
        (nodup_setAdd _ _ hnd)
        (pos_increment _ _ hpos)
      simp only [hc, ne_eq, not_false_eq_true, if_true] at hstep ⊢
      refine ⟨hstep.1, hstep.2.1, hstep.2.2.1, hstep.2.2.2.1, ?_⟩
      rw [hstep.2.2.2.2]
      simp [List.countP_cons, hc]
      omega

/-- At the absent sentinel every cell is normalised to the empty string. -/
theorem normCell_absent (row : Row) : normCell row (-1) = "" := by
  have h : row.at (-1) = none := by
    unfold Row.at
    rw [if_pos (by decide)]
  unfold normCell trimmedCell
  rw [h]
  rfl


/-- A concrete run of `calculerCodesAsso`, with a numeric code and a blank cell. -/
theorem calculerCodesAsso_example :
    calculerCodesAsso [[.str "a1"], [.str " A1"], [.num 7], [.str " "], []] 0 =
      { codes := 2, eleves := 3, details := [("A1", 2), ("7", 1)] } ∧
    calculerCodesAsso [[.str "a1"], [.str " A1"]] (-1) =
      { codes := 0, eleves := 0, details := [] } := by
  decide

/-- C18: for every row set and every column index `i` (the absent sentinel
included), `calculerCodesDisso(rows, i)` has the same `codes`, `eleves` and
`details` as `calculerCodesAsso(rows, i)`, and its `conflicts` list is empty. -/
theorem calculerCodesDisso_eq_calculerCodesAsso (rows : List Row) (i : Int) :
    (calculerCodesDisso rows i).codes = (calculerCodesAsso rows i).codes ∧
    (calculerCodesDisso rows i).eleves = (calculerCodesAsso rows i).eleves ∧
    (calculerCodesDisso rows i).details = (calculerCodesAsso rows i).details ∧
    (calculerCodesDisso rows i).conflicts = [] := by
  unfold calculerCodesDisso calculerCodesAsso
  by_cases h : i = -1
  · rw [if_pos h, if_pos h]
    exact ⟨rfl, rfl, rfl, rfl⟩
  · rw [if_neg h, if_neg h]
    exact ⟨rfl, rfl, rfl, rfl⟩

/-- The conflicts of a summary whose counts are all above the target: one per
entry. -/
theorem detecterConflitsDisso_all (s : StatsDisso) (n : Int)
    (h : ∀ e ∈ s.details, n < (e.2 : Int)) :
    detecterConflitsDisso s n = (entries s.details).map (fun e => mkConflict e.1 e.2 n) := by
  rw [detecterConflitsDisso_eq]
  congr 1
  rw [List.filter_eq_self]
  intro e he
  have := h e ((entries_perm s.details).mem_iff.1 he)
  simpa using this

/-- C19: with `s = calculerCodesDisso(rows, dissoIdx)`, for every class target
`n ≤ 0` the list `detecterConflitsDisso(s, n)` has one record for every code of
`s.details` (its length is `s.codes`, and the record of each code is in it),
and when `s.details` is empty the result is the empty list for every `n`. -/
theorem detecterConflitsDisso_nonpositive_target (rows : List Row) (dissoIdx : Int) :
    (∀ n : Int, n ≤ 0 →
      (detecterConflitsDisso (calculerCodesDisso rows dissoIdx) n).length =
        (calculerCodesDisso rows dissoIdx).codes ∧
      ∀ code count, readCount (calculerCodesDisso rows dissoIdx).details code = some count →
        mkConflict code count n ∈ detecterConflitsDisso (calculerCodesDisso rows dissoIdx) n) ∧
    ((calculerCodesDisso rows dissoIdx).details = [] →
      ∀ n : Int, detecterConflitsDisso (calculerCodesDisso rows dissoIdx) n = []) := by
  have hloop := codes_loop_spec rows dissoIdx ([], [], 0) rfl List.nodup_nil (by simp)
  obtain ⟨h1, _, h3, _, _⟩ := hloop
  have hfacts : (calculerCodesDisso rows dissoIdx).codes =
        (calculerCodesDisso rows dissoIdx).details.length ∧
      ∀ e ∈ (calculerCodesDisso rows dissoIdx).details, 1 ≤ e.2 := by
    unfold calculerCodesDisso
    by_cases hidx : dissoIdx = -1
    · rw [if_pos hidx]
      simp
    · rw [if_neg hidx]
      simp only
      exact ⟨by rw [h1, List.length_map], h3⟩
  constructor
  · intro n hn
    have hall : ∀ e ∈ (calculerCodesDisso rows dissoIdx).details, n < (e.2 : Int) := by
      intro e he
      have := hfacts.2 e he
      omega
    rw [detecterConflitsDisso_all _ n hall]
    constructor
    · rw [List.length_map, (entries_perm _).length_eq, hfacts.1]
    · intro code count hc
      have hmem := count_eq_some_mem _ _ _ hc
      exact List.mem_map.2 ⟨(code, count), (entries_perm _).mem_iff.2 hmem, rfl⟩
  · intro hempty n
    unfold detecterConflitsDisso
    rw [hempty]
    rfl

/-- The theorem of C19 at three rows with the codes D1, D1, D2 and the target 0. -/
theorem detecterConflitsDisso_nonpositive_target_witness :
    (0 : Int) ≤ 0 ∧
    (detecterConflitsDisso (calculerCodesDisso [[.str "D1"], [.str "d1"], [.str "D2"]] 0) 0).length =
      (calculerCodesDisso [[.str "D1"], [.str "d1"], [.str "D2"]] 0).codes ∧
    detecterConflitsDisso (calculerCodesDisso [[.str "D1"], [.str "d1"], [.str "D2"]] 0) 0 =
      [mkConflict "D1" 2 0, mkConflict "D2" 1 0] :=
  ⟨by decide,
    ((detecterConflitsDisso_nonpositive_target [[.str "D1"], [.str "d1"], [.str "D2"]] 0).1 0
      (by decide)).1,
    by decide⟩

/-! ## Consistency of the global count with the other tables -/

/-- The loop body of `calculerComptagesGlobaux` increments the language, when
there is one, and then the option, when there is one that differs from it. -/
theorem calculerComptagesGlobaux_eq (rows : List Row) (lv2Idx optIdx : Int) :
    calculerComptagesGlobaux rows lv2Idx optIdx =
      rows.foldl (fun t row =>
        ((if normCell row lv2Idx ≠ "" then [normCell row lv2Idx] else []) ++
          (if normCell row optIdx ≠ "" ∧ normCell row optIdx ≠ normCell row lv2Idx then
            [normCell row optIdx] else [])).foldl increment t) [] := by
  unfold calculerComptagesGlobaux
  congr 1
  funext t row
  by_cases h1 : normCell row lv2Idx = "" <;>
    by_cases h2 : normCell row optIdx = "" <;>
    by_cases h3 : normCell row optIdx = normCell row lv2Idx <;>
    simp [h1, h2, h3]

/-- An option text without delimiter is split into its normalised text, or
into nothing when it is blank. -/
theorem splitOptions_single (row : Row) (optIdx : Int)
    (h : ∀ c ∈ (optionText row optIdx).data, isDelimiter c = false) :
    splitOptions (row.at optIdx) =
      if normCell row optIdx = "" then [] else [normCell row optIdx] := by
  rw [splitOptions_eq_delimiterTokens]
  have hup : ∀ c ∈ (toUpperCase (stringOrEmpty (row.at optIdx))).data, isDelimiter c = false := by
    intro c hc
    obtain ⟨a, ha, rfl⟩ :=
      List.mem_map.1 (show c ∈ (stringOrEmpty (row.at optIdx)).data.map upperChar from hc)
    rw [isDelimiter_upperChar]
    exact h a ha
  rw [delimiterTokens_of_no_delimiter _ hup, trim_toUpperCase]
  rfl

/-- For one row with a single-token option, the increments of a key in the
global count are those of the language-only count, the option-only count and
the combined profiles together. -/
theorem global_row_identity (L O topt k : String) (htopt : topt = "" ↔ O = "") :
    ((if L ≠ "" then [L] else []) ++ (if O ≠ "" ∧ O ≠ L then [O] else [])).count k =
      (if (L ≠ "" ∧ topt = "") ∧ L = k then 1 else 0) +
      (if (O ≠ "" ∧ L = "") ∧ O = k then 1 else 0) +
      (if L ≠ "" ∧ (if O = "" then [] else [O]) ≠ [] ∧
          (L = k ∨ k ∈ (if O = "" then [] else [O])) then 1 else 0) := by
  simp only [htopt]
  by_cases hL : L = ""
  · by_cases hO : O = ""
    · simp [hL, hO]
    · have hOL : O ≠ L := by rw [hL]; exact hO
      by_cases hk : O = k
      · simp [hL, hO, hk, hk ▸ hO]
      · have hk' : ¬ k = O := fun e => hk e.symm
        simp [hL, hO, hOL, hk, List.count_cons_of_ne hk']
  · by_cases hO : O = ""
    · by_cases hk : L = k
      · simp [hL, hO, hk, hk ▸ hL]
      · have hk' : ¬ k = L := fun e => hk e.symm
        simp [hL, hO, hk, List.count_cons_of_ne hk']
    · by_cases hk : L = k
      · by_cases hOL : O = L
        · simp [hL, hO, hk, hOL, hk ▸ hL]
        · have hOk : ¬ k = O := fun e => hOL (by rw [← e, hk])
          simp [hL, hO, hk, hOL, hk ▸ hL, hk ▸ hOL, List.count_cons_of_ne hOk]
      · have hk' : ¬ k = L := fun e => hk e.symm
        by_cases hOk : O = k
        · have hOL : O ≠ L := by rw [hOk]; exact hk'
          simp [hL, hO, hk, hk', hOL, hOk, hOk ▸ hO, List.count_cons_of_ne hk']
        · have hOk' : ¬ k = O := fun e => hOk e.symm
          by_cases hOL : O = L
          · simp [hL, hO, hk, hOL, hOk, hk', List.count_cons_of_ne hk']
          · simp [hL, hO, hk, hOL, hOk, hk', hOk', List.count_cons_of_ne hk',
              List.count_cons_of_ne hOk']


/-- The counts of the witness of C20: 4 = 1 + 1 + 2. -/
theorem calculerComptagesGlobaux_decomposition_example :
    (readCount (calculerComptagesGlobaux [[.str "LATIN", .empty], [.empty, .str "latin"],
      [.str "ESP", .str "Latin"], [.str "LATIN", .str "LATIN"]] 0 1) "LATIN").getD 0 = 4 ∧
    (readCount (calculerLV2 [[.str "LATIN", .empty], [.empty, .str "latin"],
      [.str "ESP", .str "Latin"], [.str "LATIN", .str "LATIN"]] 0 1) "LATIN").getD 0 = 1 ∧
    (readCount (calculerOptions [[.str "LATIN", .empty], [.empty, .str "latin"],
      [.str "ESP", .str "Latin"], [.str "LATIN", .str "LATIN"]] 1 0) "LATIN").getD 0 = 1 := by
  decide

/-- Without the single-token condition the decomposition fails: the options
LATIN/CHAV count under the whole string in the global table and under each
token in the combined profiles. -/
theorem calculerComptagesGlobaux_multi_token_example :
    (readCount (calculerComptagesGlobaux [[.str "ESP", .str "LATIN/CHAV"]] 0 1) "LATIN").getD 0 = 0 ∧
    [[Cell.str "ESP", .str "LATIN/CHAV"]].countP (fun row =>
        decide (normCell row 0 ≠ "" ∧ splitOptions (row.at 1) ≠ [] ∧
          (normCell row 0 = "LATIN" ∨ "LATIN" ∈ splitOptions (row.at 1)))) = 1 := by
  decide

end AnalyticsStats
